import Mathlib

/-!
Shallow embedding of `src/pythonx/emmet.py` (the emmet.snippets core:
abbreviation parser, tag-tree model, renderer with jump counting).

The Python code mutates a heap of `Tag` objects linked by `parent` /
`children` references, so the embedding models the object heap explicitly:
a node is a record, the heap is a list of records, and object references
are indices into that list.  Index `0` is always the `Emmet` root container.
Python exceptions (AttributeError, TypeError, ValueError, RecursionError)
are modelled with `Except`.
-/

namespace EmmetPy

/-- A Python attribute *value element*.  `Attribute.value` is a Python list
whose elements are normally strings (`Val.s`), but
`Attribute.__add__` executes `self.value[0] = a.value`, storing a whole
Python list as one element; `Val.l` represents that case.  The stored list
always comes from the right operand of `+`, which in this program is always
a freshly constructed `Attribute(name, s)` whose value is a one-string
list, so list elements are strings and no deeper nesting can arise. -/
inductive Val
  | s (v : String)
  | l (vs : List String)
deriving DecidableEq, Repr

/-- `class Attribute`: a name together with the Python list `self.value`. -/
structure Attr where
  name : String
  value : List Val
deriving DecidableEq, Repr

/-- `Attribute.__init__(name, value)` with a string value: `self.value = [value]`. -/
def Attr.mk1 (name v : String) : Attr := ⟨name, [Val.s v]⟩

/-- `Attribute.clone`: `Attribute(self.name, self.value[:])` — a fresh object
whose value list is a copy; with value semantics the copy is the same value. -/
def Attr.clone (a : Attr) : Attr := ⟨a.name, a.value⟩

/-- One heap cell: either the `Emmet` root container (`isRoot = true`) or a
`Tag`.  For a tag, `parent = none` models Python `None` (the `Tag.__init__`
default); for the root, `parent = none` models the *absence* of the
attribute (`Emmet.__init__` never sets it, reading it raises
AttributeError — but `Tag.__gt__` can later create it). -/
structure Node where
  isRoot : Bool
  name : String
  attrs : List Attr
  children : List Nat
  parent : Option Nat
  mulPos : Int
  mulEnd : Int
deriving DecidableEq, Repr

/-- `Tag.__init__(name)`. -/
def Node.tag (name : String) : Node :=
  ⟨false, name, [], [], none, 1, 1⟩

/-- `Emmet.__init__()`. -/
def Node.root : Node :=
  ⟨true, "", [], [], none, 1, 1⟩

/-- The object heap; indices are object references, index 0 is the root. -/
abbrev Heap := List Node

/-- Python exceptions raised by the source code. -/
inductive Err
  | attributeError
  | typeError
  | valueError
  | recursionError
deriving DecidableEq, Repr

/-- The value of the parser variable `ct` (and of operator results):
either one object (`Tag`, or the `Emmet` root, index 0) or a `TagList`. -/
inductive Obj
  | node (i : Nat)
  | group (l : List Nat)
deriving DecidableEq, Repr

/-- Allocate a fresh object on the heap, returning its reference. -/
def alloc (h : Heap) (n : Node) : Heap × Nat :=
  (h ++ [n], h.length)

/-- Read a heap cell; a dangling reference is impossible for states built by
the operations below, but the model must still be total. -/
def getN (h : Heap) (i : Nat) : Except Err Node :=
  match h[i]? with
  | some n => .ok n
  | none => .error .valueError

/-- Update a heap cell in place. -/
def setN (h : Heap) (i : Nat) (n : Node) : Heap :=
  h.set i n

/-- `Tag.__gt__` and `Emmet.__gt__` (identical bodies):
`t.parent = self; self.children.append(t); return t`.
`p` is `self`, `t` the attached object.  The two field updates are
sequential, which is also correct when `p = t` (Python: same object). -/
def gtAttach (h : Heap) (p t : Nat) : Except Err Heap := do
  let tn ← getN h t
  let h1 := setN h t { tn with parent := some p }
  let pn ← getN h1 p
  .ok (setN h1 p { pn with children := pn.children ++ [t] })

/-- Remove the first occurrence of `y` (Python `list.remove`; `Tag` has no
`__eq__`, so equality is identity, i.e. reference equality). -/
def removeFirst : List Nat → Nat → Option (List Nat)
  | [], _ => none
  | x :: xs, y => if x = y then some xs else (removeFirst xs y).map (x :: ·)

/-- `x < y` as executed by the source.  If `x` is a `Tag`, `Tag.__lt__` runs:
`x.children.remove(y)` (ValueError when absent).  The `Emmet` root defines
no `__lt__`, so Python falls back to the reflected operation `y.__gt__(x)`,
which *attaches the root as a child of `y`* and sets the root's `parent`. -/
def ltDetach (h : Heap) (x y : Nat) : Except Err Heap := do
  let xn ← getN h x
  if xn.isRoot then
    gtAttach h y x
  else
    match removeFirst xn.children y with
    | some cs => .ok (setN h x { xn with children := cs })
    | none => .error .valueError

/-- Read `obj.parent` as an object reference.  For the root with the
attribute unset this is Python's AttributeError.  A `Tag` whose parent is
Python `None` yields `None`; every subsequent use of that `None` in the
source (`None > t`, `None.parent`, `None + a`, …) raises, so the model
collapses it to an error at the read. -/
def parentRef (h : Heap) (i : Nat) : Except Err Nat := do
  let n ← getN h i
  match n.parent with
  | some p => .ok p
  | none => .error .attributeError

/-- Clone a list of children left to right with a given per-node cloning
function (`[c.clone() for c in self.children]`). -/
def cloneListF (f : Heap → Nat → Except Err (Heap × Nat)) :
    Heap → List Nat → Except Err (Heap × List Nat)
  | h, [] => .ok (h, [])
  | h, c :: cs => do
    let (h1, cid) ← f h c
    let (h2, rest) ← cloneListF f h1 cs
    .ok (h2, cid :: rest)

/-- `Tag.clone(mul)`: allocate a fresh tag with the template's name, clone
the children (each with the default `mul = 1`), copy the attribute list,
copy the template's `parent` reference verbatim, and `setmul(mul,
end=self.mul_end)`.  Cloning the `Emmet` root raises (it has no `clone`).
Fuel bounds the recursion depth; the Python recursion can only fail to
terminate on cyclic heaps, where it raises RecursionError. -/
def cloneNode : Nat → Heap → Nat → Int → Except Err (Heap × Nat)
  | 0, _, _, _ => .error .recursionError
  | fuel + 1, h, i, mul => do
    let n ← getN h i
    if n.isRoot then .error .attributeError
    else
      let (h1, tid) := alloc h (Node.tag n.name)
      let (h2, cids) ← cloneListF (fun h' c => cloneNode fuel h' c 1) h1 n.children
      let tn ← getN h2 tid
      .ok (setN h2 tid { tn with children := cids,
                                 attrs := n.attrs.map Attr.clone,
                                 parent := n.parent,
                                 mulPos := mul, mulEnd := n.mulEnd }, tid)

/-- Fuel that is always sufficient for `Tag.clone` on acyclic heaps: a
descending reference chain never revisits a node, so depth ≤ heap size. -/
def cloneFuel (h : Heap) : Nat := h.length + 2

/-- `Attribute.__eq__` is name equality (the argument is always truthy). -/
def Attr.sameName (a b : Attr) : Bool := a.name == b.name

/-- Read a stored string back out of a value element (used for
`self.value[0] = a.value` where `a.value` holds only strings — `a` is
always a freshly built one-string attribute in this program). -/
def Val.str : Val → String
  | .s v => v
  | .l _ => ""

/-- `Attribute.__add__`: on a name match, `class` appends the new values,
any other name executes `self.value[0] = a.value`, storing the right
operand's whole value list as element 0 (`List.set` is a no-op on an empty
list; Python would raise IndexError there, but parser-built attributes
always have a nonempty value list). -/
def Attr.add (self a : Attr) : Attr :=
  if a.name = self.name then
    if self.name = "class" then { self with value := self.value ++ a.value }
    else { self with value := self.value.set 0 (Val.l (a.value.map Val.str)) }
  else self

/-- `self.attributes[self.attributes.index(a)] + a`: merge into the first
attribute with a matching name. -/
def mergeFirst : List Attr → Attr → List Attr
  | [], _ => []
  | b :: bs, a => if b.name = a.name then b.add a :: bs else b :: mergeFirst bs a

/-- `Tag.__add__`: append a new attribute, or merge into the existing one
with the same name. -/
def Node.addAttr (n : Node) (a : Attr) : Node :=
  if n.attrs.any (fun b => b.name = a.name) then
    { n with attrs := mergeFirst n.attrs a }
  else { n with attrs := n.attrs ++ [a] }

/-- Digit grammar of Python `int(str)`: digits with single underscores
strictly between digits.  `prev` records whether the previous character
was a digit (so an underscore is currently allowed). -/
def intBody : List Char → Bool → Bool
  | [], prev => prev
  | c :: cs, prev =>
    if c.isDigit then intBody cs true
    else if c = '_' then prev && intBody cs false
    else false

/-- Numeric value of a valid digit string (underscores ignored). -/
def digitsVal (cs : List Char) : Nat :=
  cs.foldl (fun acc c => if c = '_' then acc else acc * 10 + (c.toNat - '0'.toNat)) 0

/-- Python `int(s)`: optional surrounding whitespace, optional sign,
digits with single underscores between them; ValueError otherwise. -/
def pyInt (s : String) : Except Err Int :=
  let cs := ((s.toList.dropWhile Char.isWhitespace).reverse.dropWhile
    Char.isWhitespace).reverse
  match cs with
  | '-' :: rest =>
    if intBody rest false then .ok (-(digitsVal rest : Int)) else .error .valueError
  | '+' :: rest =>
    if intBody rest false then .ok (digitsVal rest : Int) else .error .valueError
  | rest =>
    if intBody rest false then .ok (digitsVal rest : Int) else .error .valueError

/-- `class Jumpcount`: counter starting at 1, plus the `count` flag that
selects counting mode. -/
structure Jc where
  c : Nat
  count : Bool
deriving DecidableEq, Repr

/-- `Jumpcount.__init__(count)`. -/
def Jc.start (count : Bool) : Jc := ⟨1, count⟩

/-- The `inc` property: `self.c += 1; return self.c` — it pre-increments
and returns the *new* value. -/
def Jc.inc (j : Jc) : Nat × Jc := (j.c + 1, ⟨j.c + 1, j.count⟩)

/-- Order-preserving model of Python `set(...)` in `TagList.parent`
(identity-keyed; CPython's iteration order over such a set is
unspecified — first-occurrence order is one admissible choice). -/
def dedupKeepFirst (l : List Nat) : List Nat := go l []
where go : List Nat → List Nat → List Nat
  | [], _ => []
  | x :: xs, seen => if x ∈ seen then go xs seen else x :: go xs (x :: seen)

/-- `TagList.parent`: the deduplicated parents of the members, as a group. -/
def groupParents (h : Heap) (l : List Nat) : Except Err (List Nat) := do
  let ps ← l.mapM (parentRef h)
  .ok (dedupKeepFirst ps)

/-- `x.parent` for a `ct` value: single object or `TagList`. -/
def objParent (h : Heap) : Obj → Except Err Obj
  | .node i => (parentRef h i).map .node
  | .group l => (groupParents h l).map .group

/-- `TagList._iter_objs` collapse: a one-element result list is unwrapped
to the plain object. -/
def unwrap : List Nat → Obj
  | [x] => .node x
  | l => .group l

/-- `TagList.__gt__` body: each member receives its own clone of the
attached tag (`obj > t.clone()`), left to right. -/
def iterAttach (h : Heap) (l : List Nat) (t : Nat) : Except Err (Heap × List Nat) :=
  match l with
  | [] => .ok (h, [])
  | x :: xs => do
    let (h1, c) ← cloneNode (cloneFuel h) h t 1
    let h2 ← gtAttach h1 x c
    let (h3, rest) ← iterAttach h2 xs t
    .ok (h3, c :: rest)

/-- `x > t` for a `ct` value `x` and a tag `t`: plain attach for a single
object (`Tag.__gt__` / `Emmet.__gt__`), broadcast-with-clones for a
`TagList`, whose result collapses when it has exactly one element. -/
def objGt (h : Heap) (target : Obj) (t : Nat) : Except Err (Heap × Obj) :=
  match target with
  | .node p => do
    let h' ← gtAttach h p t
    .ok (h', .node t)
  | .group l => do
    let (h', res) ← iterAttach h l t
    .ok (h', unwrap res)

/-- `obj + Attribute(...)` on one object; the `Emmet` root has no
`__add__` (TypeError). `Tag.__add__` returns `self`. -/
def nodeAddAttr (h : Heap) (i : Nat) (a : Attr) : Except Err Heap := do
  let n ← getN h i
  if n.isRoot then .error .typeError
  else .ok (setN h i (n.addAttr a))

/-- `TagList.__add__` body: `obj + a.clone()` per member; the member
itself is the per-member result. -/
def iterAdd (h : Heap) (l : List Nat) (a : Attr) : Except Err (Heap × List Nat) :=
  match l with
  | [] => .ok (h, [])
  | x :: xs => do
    let h1 ← nodeAddAttr h x a.clone
    let (h2, rest) ← iterAdd h1 xs a
    .ok (h2, x :: rest)

/-- `ct + Attribute(...)` for a `ct` value. -/
def objAdd (h : Heap) (ct : Obj) (a : Attr) : Except Err (Heap × Obj) :=
  match ct with
  | .node i => do
    let h1 ← nodeAddAttr h i a
    .ok (h1, .node i)
  | .group l => do
    let (h1, res) ← iterAdd h l a
    .ok (h1, unwrap res)

/-- Python `range(lo, n + 1)` as an explicit list. -/
def intRange (lo : Nat) (n : Int) : List Nat :=
  List.range' lo (n + 1 - lo).toNat

/-- The clone comprehension of the `*` operator:
`[ct.parent > ct.clone(i) for i in range(2, int(s) + 1)]` over the
materialized index range; `ct.parent` is re-read on every iteration, as
in the source. -/
def starClones (h : Heap) (i : Nat) : List Nat → Except Err (Heap × List Nat)
  | [] => .ok (h, [])
  | idx :: rest => do
    let p ← parentRef h i
    let (h1, c) ← cloneNode (cloneFuel h) h i (idx : Int)
    let h2 ← gtAttach h1 p c
    let (h3, rest') ← starClones h2 i rest
    .ok (h3, c :: rest')

/-- `operators['*']` on a single node `ct`:
`TagList([ct.setmul(end=int(s))] + [ct.parent > ct.clone(i) for i in
range(2, int(s) + 1)])`.  `int(s)` is evaluated first; `setmul` on the
`Emmet` root raises AttributeError.  Note `setmul(end=…)` resets the
multiplication position to its default 1, and the result is a `TagList`
even when it has a single member. -/
def starSingle (h : Heap) (i : Nat) (s : String) : Except Err (Heap × Obj) := do
  let n ← pyInt s
  let n0 ← getN h i
  if n0.isRoot then .error .attributeError
  else
    let h1 := setN h i { n0 with mulPos := 1, mulEnd := n }
    let (h2, clones) ← starClones h1 i (intRange 2 n)
    .ok (h2, .group (i :: clones))

/-- One member's share of `TagList.clone(mul)`:
`[obj.setmul(end=mul)] + [obj.parent > obj.clone(i) for i in range(2, mul+1)]`. -/
def starGroupMember (h : Heap) (obj : Nat) (n : Int) :
    Except Err (Heap × List Nat) := do
  let n0 ← getN h obj
  if n0.isRoot then .error .attributeError
  else
    let h1 := setN h obj { n0 with mulPos := 1, mulEnd := n }
    let (h2, clones) ← starClones h1 obj (intRange 2 n)
    .ok (h2, obj :: clones)

/-- The member loop of `TagList.clone`. -/
def starGroupMembers (h : Heap) (l : List Nat) (n : Int) :
    Except Err (Heap × List Nat) :=
  match l with
  | [] => .ok (h, [])
  | x :: xs => do
    let (h1, nobjs) ← starGroupMember h x n
    let (h2, rest) ← starGroupMembers h1 xs n
    .ok (h2, nobjs ++ rest)

/-- `operators['*']` on a `TagList` `ct`: `ct.clone(int(s))`, which
multiplies every member in place and updates (and returns) the same
`TagList`. -/
def starGroup (h : Heap) (l : List Nat) (s : String) : Except Err (Heap × Obj) := do
  let n ← pyInt s
  let (h1, nobjs) ← starGroupMembers h l n
  .ok (h1, .group nobjs)

/-- One `attach_at_parent` move from `stack_parents`:
`obj.parent < obj; obj.parent.parent > obj`.  When `obj.parent` is the
`Emmet` root the `<` falls back to the reflected `obj.__gt__(root)`
(see `ltDetach`), after which `obj.parent.parent` goes through the
freshly created root `parent` attribute. -/
def moveUp (h : Heap) (obj : Nat) : Except Err Heap := do
  let p ← parentRef h obj
  let h1 ← ltDetach h p obj
  let p2 ← parentRef h1 obj
  let p3 ← parentRef h1 p2
  gtAttach h1 p3 obj

/-- `for obj in t: …` in `stack_parents` when the inner result is a
`TagList`. -/
def moveUps (h : Heap) : List Nat → Except Err Heap
  | [] => .ok h
  | x :: xs => do moveUps (← moveUp h x) xs

/-- The pending-operator value `o` of the parser: one of the callables in
`operators`, possibly wrapped by `stack_parents` (each extra `^` wraps
once more). -/
inductive OpC
  | gt | plus | caret | hash | dot | star
deriving DecidableEq, Repr

inductive Pend
  | base (c : OpC)
  | stacked (o : Pend)
deriving DecidableEq, Repr

/-- `Tag(s)`. -/
def newTag (h : Heap) (s : String) : Heap × Nat := alloc h (Node.tag s)

/-- `o(ct, s)`: apply a pending operator to the current object and the
buffered literal. -/
def applyPend (h : Heap) (ct : Obj) (s : String) : Pend → Except Err (Heap × Obj)
  | .base .gt =>
    -- ct > Tag(s)
    let (h1, t) := newTag h s
    objGt h1 ct t
  | .base .plus => do
    -- ct.parent > Tag(s)
    let par ← objParent h ct
    let (h1, t) := newTag h s
    objGt h1 par t
  | .base .caret => do
    -- ct.parent.parent > Tag(s); the `callable(ct)` branch is handled at
    -- operator-composition time (`composePend`), not here
    let p1 ← objParent h ct
    let p2 ← objParent h p1
    let (h1, t) := newTag h s
    objGt h1 p2 t
  | .base .hash => objAdd h ct (Attr.mk1 "id" s)
  | .base .dot => objAdd h ct (Attr.mk1 "class" s)
  | .base .star =>
    match ct with
    | .node i => starSingle h i s
    | .group l => starGroup h l s
  | .stacked o => do
    -- stack_parents(o): run the wrapped operator, then shift each
    -- resulting object one structural level up; return the inner result
    let (h1, t) ← applyPend h ct s o
    match t with
    | .group l => do
      let h2 ← moveUps h1 l
      .ok (h2, .group l)
    | .node i => do
      let h2 ← moveUp h1 i
      .ok (h2, .node i)

/-- The single characters that are keys of `operators` (the two `@…` keys
are multi-character and never equal a single input character). -/
def opChars : List Char := ['>', '+', '^', '#', '[', ']', '.', '{', '}', '*', '(', ')']

/-- Dispatch: the six entries bound to lambdas; the rest are `None`. -/
def baseOf : Char → Option OpC
  | '>' => some .gt
  | '+' => some .plus
  | '^' => some .caret
  | '#' => some .hash
  | '.' => some .dot
  | '*' => some .star
  | _ => none

/-- Parser state: heap, current object `ct`, pending operation `o`,
buffered literal `s`. -/
structure PState where
  h : Heap
  ct : Obj
  o : Option Pend
  s : String
deriving DecidableEq, Repr

/-- `e = Emmet(); ct = e; o = None; s = ''`. -/
def initSt : PState := ⟨[Node.root], .node 0, none, ""⟩

/-- `operators[c](o, s)` when `o` is already a pending operator.  This is
only reached with `s = ''` (a nonempty `s` is resolved first).  Only the
`^` entry tests `callable(ct)` and curries (`stack_parents(o)`); every
other entry raises when handed a function: `>` runs
`Tag('').children.remove(o)` (ValueError), `+` reads `o.parent`
(AttributeError), `#`/`.` run `o + Attribute(...)` (TypeError), `*` runs
`int('')` (ValueError), and the `None` entries are not callable
(TypeError). -/
def composePend (c : Char) (p : Pend) : Except Err Pend :=
  match baseOf c with
  | some .caret => .ok (.stacked p)
  | some .gt => .error .valueError
  | some .plus => .error .attributeError
  | some .hash => .error .typeError
  | some .dot => .error .typeError
  | some .star => .error .valueError
  | none => .error .typeError

/-- One iteration of the scan loop in `parse`. -/
def step (st : PState) (c : Char) : Except Err PState :=
  if c ∉ opChars then
    if c = ' ' then .ok st
    else .ok { st with s := st.s.push c }
  else do
    -- if o and s: ct = o(ct, s); s = ''; o = None
    let (h, ct, o, s) ←
      match st.o with
      | some p =>
        if st.s = "" then pure (st.h, st.ct, some p, st.s)
        else do
          let (h', ct') ← applyPend st.h st.ct st.s p
          pure (h', ct', none, "")
      | none => pure (st.h, st.ct, st.o, st.s)
    -- o = operators[c](o, s) if o else operators[c]
    let o' ← match o with
      | some p => (composePend c p).map some
      | none => pure ((baseOf c).map .base)
    -- if ct is e and s: ct = e > Tag(s); s = ''
    if ct = Obj.node 0 ∧ s ≠ "" then
      let (h1, t) := newTag h s
      let h2 ← gtAttach h1 0 t
      .ok ⟨h2, .node t, o', ""⟩
    else .ok ⟨h, ct, o', s⟩

/-- The fall-back after the scan loop (end of string reached). -/
def finish (st : PState) : Except Err Heap :=
  if st.s ≠ "" ∧ (st.o.isSome ∨ st.ct = Obj.node 0) then
    if st.ct = Obj.node 0 then do
      let (h1, t) := newTag st.h st.s
      gtAttach h1 0 t
    else
      match st.o with
      | some p => do
        let (h', _) ← applyPend st.h st.ct st.s p
        .ok h'
      | none => .ok st.h   -- unreachable under the guard above
  else .ok st.h

/-- `parse` on an explicit character list. -/
def parseL (cs : List Char) : Except Err Heap := do
  finish (← cs.foldlM step initSt)

/-- `parse(emmet)`: returns the root container's heap, or the raised
exception. -/
def parse (input : String) : Except Err Heap := parseL input.toList

/-- `'%0Kd' % mul`: decimal rendering of `mul` zero-padded to total width
`pad`; for a negative number the sign occupies one of the columns. -/
def padFmt (mul : Int) (pad : Nat) : String :=
  let ds := toString mul.natAbs
  let sign := if mul < 0 then "-" else ""
  sign ++ String.mk (List.replicate (pad - (ds.length + sign.length)) '0') ++ ds

/-- The character loop of `Attribute.tostr` over one *string* value
(`for c in v` iterates characters): a pending run of `pad` dollar signs is
flushed as `'%0{pad}d' % mul` when a non-dollar character or the end of
the value is reached. -/
def scanStr (mul : Int) : List Char → Nat → List Char
  | [], pad => if pad = 0 then [] else (padFmt mul pad).toList
  | ch :: cs, pad =>
    if ch = '$' then scanStr mul cs (pad + 1)
    else (if pad = 0 then [] else (padFmt mul pad).toList) ++ ch :: scanStr mul cs 0

/-- The same loop over a *stored list* value (`self.value[0] = a.value`
left a list there): iteration yields whole strings, each compared against
`'$'` wholesale. -/
def scanLst (mul : Int) : List String → Nat → List Char
  | [], pad => if pad = 0 then [] else (padFmt mul pad).toList
  | v :: vs, pad =>
    if v = "$" then scanLst mul vs (pad + 1)
    else (if pad = 0 then [] else (padFmt mul pad).toList) ++ v.toList ++ scanLst mul vs 0

/-- One element of `Attribute.value` rendered with multiplication index
`mul`. -/
def renderVal (mul : Int) : Val → String
  | .s v => String.mk (scanStr mul v.toList 0)
  | .l vs => String.mk (scanLst mul vs 0)

/-- `Attribute.tostr(jm, mul)`.  The third component lists the jump ids
this call embeds: `jm.inc` runs only when the rendered value list is
empty, and the post-increment counter is embedded as `$N` only in
counting mode (parser-built attributes always have a nonempty value
list, so neither happens for them). -/
def attrTostr (a : Attr) (jm : Jc) (mul : Int) : String × Jc × List Nat :=
  let res := a.value.map (renderVal mul)
  if res.isEmpty then
    let (cv, jm') := jm.inc
    if jm'.count then
      (a.name ++ "=\"" ++ "$" ++ toString cv ++ "\"", jm', [cv])
    else
      (a.name ++ "=\"" ++ String.intercalate " " res ++ "\"", jm', [])
  else
    (a.name ++ "=\"" ++ String.intercalate " " res ++ "\"", jm, [])

/-- `' '.join(map(lambda a: a.tostr(jm, mul=_mul), self.attributes))`,
threading the jump counter left to right. -/
def attrsTostr : List Attr → Jc → Int → String × Jc × List Nat
  | [], jm, _ => ("", jm, [])
  | [a], jm, m => attrTostr a jm m
  | a :: rest, jm, m =>
    let (s1, jm1, ids1) := attrTostr a jm m
    let (s2, jm2, ids2) := attrsTostr rest jm1 m
    (s1 ++ " " ++ s2, jm2, ids1 ++ ids2)

/-- `'\n'.join(map(lambda t: t.tostr(jm, level, mul), children))` for a
given per-node rendering function, threading the counter left to right. -/
def tostrListF (f : Nat → Jc → Except Err (String × Jc × List Nat)) :
    List Nat → Jc → Except Err (String × Jc × List Nat)
  | [], jm => .ok ("", jm, [])
  | [c], jm => f c jm
  | c :: rest, jm => do
    let (s1, jm1, ids1) ← f c jm
    let (s2, jm2, ids2) ← tostrListF f rest jm1
    .ok (s1 ++ "\n" ++ s2, jm2, ids1 ++ ids2)

/-- `Tag.tostr(jm, level, mul)` with the `STACKED_MULTIPLICATION` flag
passed explicitly and a recursion-depth fuel (the Python recursion can
only fail to terminate on cyclic heaps, where it raises
RecursionError).  Returns the rendered string, the threaded counter, and
the list of embedded `$N` jump ids in output order: the attribute
renderings are produced first, then this node's `jm.inc` runs, and the
post-increment value `cv` is embedded exactly when the node is a leaf in
counting mode; children are rendered afterwards at `level + 1` with the
effective index `_mul`.  Calling this on the `Emmet` root raises, as
`Emmet.tostr` accepts none of the `level`/`mul` keywords. -/
def tostrNode (stacked : Bool) : Nat → Heap → Nat → Jc → Nat → Int →
    Except Err (String × Jc × List Nat)
  | 0, _, _, _, _, _ => .error .recursionError
  | fuel + 1, h, i, jm, level, mul => do
    let n ← getN h i
    if n.isRoot then .error .typeError
    else
      let m : Int := if stacked then n.mulEnd * (mul - 1) + n.mulPos else n.mulPos
      let (attrStr, jm1, ids1) := attrsTostr n.attrs jm m
      let attrsOut := (if n.attrs.isEmpty then "" else " ") ++ attrStr
      let (cv, jm2) := jm1.inc
      let (childrenStr, jm3, ids2) ←
        tostrListF (fun c jc => tostrNode stacked fuel h c jc (level + 1) m)
          n.children jm2
      let indent := String.mk (List.replicate level '\t')
      let blockStr :=
        if n.children.isEmpty then (if jm2.count then "$" ++ toString cv else "")
        else "\n"
      let blockindent := if n.children.isEmpty then "" else "\n" ++ indent
      let leafIds := if n.children.isEmpty ∧ jm2.count then [cv] else []
      .ok (indent ++ "<" ++ n.name ++ attrsOut ++ ">" ++ blockStr ++ childrenStr
            ++ blockindent ++ "</" ++ n.name ++ ">", jm3, ids1 ++ leafIds ++ ids2)

/-- `Emmet.tostr(jm)` (reached via `str(e)` in preview mode and via
`E.tostr(Jumpcount(True))` in `post_jump`): render the top-level children
joined by newlines, threading one fresh `Jumpcount(count)` whose counter
starts at 1, with `level = 0` and `mul = 1`. -/
def renderRoot (stacked : Bool) (fuel : Nat) (h : Heap) (count : Bool) :
    Except Err (String × Jc × List Nat) := do
  let n ← getN h 0
  tostrListF (fun c jc => tostrNode stacked fuel h c jc 0 1) n.children
    (Jc.start count)

/-! ### C7: the parent back-reference invariant -/

/-- The C7 invariant, executable form: every non-root cell whose index is
in range has a `parent` reference to a cell whose children sequence
contains this index exactly once. -/
def locallyCoherentB (h : Heap) : Bool :=
  (List.range h.length).all fun j =>
    match h[j]? with
    | none => true
    | some nj =>
      if nj.isRoot then true
      else
        match nj.parent with
        | none => false
        | some p =>
          match h[p]? with
          | none => false
          | some pn => pn.children.count j == 1

/-- The C7 invariant as a proposition over the heap. -/
def locallyCoherent (h : Heap) : Prop :=
  ∀ (j : Nat) (nj : Node), h[j]? = some nj → nj.isRoot = false →
    ∃ p pn, nj.parent = some p ∧ h[p]? = some pn ∧ pn.children.count j = 1

/-- Every child reference stored in the heap is in bounds. -/
def childrenClosed (h : Heap) : Prop :=
  ∀ (j : Nat) (nj : Node), h[j]? = some nj → ∀ c ∈ nj.children, c < h.length

/-! ### Basic lemmas about the heap primitives -/

theorem getN_ok {h : Heap} {i : Nat} {n : Node} (hn : h[i]? = some n) :
    getN h i = .ok n := by
  simp [getN, hn]

theorem removeFirst_append_of_not_mem {l : List Nat} {x : Nat} (hx : x ∉ l) :
    removeFirst (l ++ [x]) x = some l := by
  induction l with
  | nil => simp [removeFirst]
  | cons a as ih =>
    simp only [List.mem_cons, not_or] at hx
    simp [removeFirst, Ne.symm hx.1, ih hx.2]

theorem Attr.clone_eq (a : Attr) : a.clone = a := rfl

theorem map_clone_eq (l : List Attr) : l.map Attr.clone = l := by
  simp only [show Attr.clone = id from funext Attr.clone_eq, List.map_id]

/-! ### C6: error behaviour of `parse` -/

/-- C6, counterexample.  The claim asserts `parse` reports a parse error
for the empty abbreviation, for an abbreviation starting with an operator,
and for a multiplication count that does not parse as a positive integer.
In fact `parse ""` returns the empty root container, `parse "+a"` drops
the leading operator and attaches `a` as a top-level node, and
`parse "a*0"` accepts the non-positive count 0 (group size 0), all
without error. -/
theorem claim6_counterexample :
    parse "" = .ok [Node.root]
    ∧ parse "+a" = .ok [⟨true, "", [], [1], none, 1, 1⟩,
        ⟨false, "a", [], [], some 0, 1, 1⟩]
    ∧ parse "a*0" = .ok [⟨true, "", [], [1], none, 1, 1⟩,
        ⟨false, "a", [], [], some 0, 1, 0⟩] :=
  ⟨rfl, rfl, rfl⟩

/-- C6, amended.  `parse` raises a distinguishable Python exception when a
pending operator is applied to an unsuitable left operand at resolution
time: a multiplication count that fails integer parsing on a non-root
current node (`parse "a*b"`: ValueError), and a sibling or attribute
operator resolved while the current object is still the root container
(`parse "+a+b"`: AttributeError, `parse "#a.b"`: TypeError).  However,
the empty abbreviation yields an empty root container without error, a
single leading operator before the first literal is dropped
(`parse "+a" = parse "a"`), and a count parsing as a non-positive
integer is accepted silently (`parse "a*0"` succeeds with group size 0). -/
theorem claim6_amended :
    parse "a*b" = .error .valueError
    ∧ parse "+a+b" = .error .attributeError
    ∧ parse "#a.b" = .error .typeError
    ∧ parse "" = .ok [Node.root]
    ∧ parse "+a" = parse "a"
    ∧ parse "a*0" = .ok [⟨true, "", [], [1], none, 1, 1⟩,
        ⟨false, "a", [], [], some 0, 1, 0⟩] :=
  ⟨rfl, rfl, rfl, rfl, rfl, rfl⟩

/-! ### C5: attribute addition is idempotent by name -/

theorem mergeFirst_append_no_match {attrs : List Attr} {a b : Attr}
    (hno : attrs.any (fun x => x.name = b.name) = false) (hab : a.name = b.name) :
    mergeFirst (attrs ++ [a]) b = attrs ++ [a.add b] := by
  induction attrs with
  | nil => simp [mergeFirst, hab]
  | cons x xs ih =>
    simp only [List.any_cons, Bool.or_eq_false_iff, decide_eq_false_iff_not] at hno
    simp [mergeFirst, hno.1, ih (by simpa using hno.2)]

theorem addAttr_fresh {n : Node} {a : Attr}
    (hno : n.attrs.any (fun x => x.name = a.name) = false) :
    n.addAttr a = { n with attrs := n.attrs ++ [a] } := by
  simp [Node.addAttr, hno]

/-- C5: attribute addition on a node is idempotent by name.  Adding an
`id` attribute when one already exists replaces the existing value — after
two `#` operators the single `id` attribute's value list holds exactly one
element, carrying the value of the second addition (stored as the second
operand's value list, per `self.value[0] = a.value`) — while adding a
`class` attribute when one exists appends the new value in insertion
order; `parse "div.a.b"` yields a single `class` attribute with values
`["a", "b"]` in that order. -/
theorem claim5_attr_add :
    (∀ (n : Node) (x y : String),
      n.attrs.any (fun b => b.name = "id") = false →
      ((n.addAttr (Attr.mk1 "id" x)).addAttr (Attr.mk1 "id" y)).attrs
        = n.attrs ++ [⟨"id", [Val.l [y]]⟩])
    ∧ (∀ (n : Node) (x y : String),
      n.attrs.any (fun b => b.name = "class") = false →
      ((n.addAttr (Attr.mk1 "class" x)).addAttr (Attr.mk1 "class" y)).attrs
        = n.attrs ++ [⟨"class", [Val.s x, Val.s y]⟩])
    ∧ parse "div.a.b" = .ok [⟨true, "", [], [1], none, 1, 1⟩,
        ⟨false, "div", [⟨"class", [Val.s "a", Val.s "b"]⟩], [], some 0, 1, 1⟩]
    ∧ parse "div#x#y" = .ok [⟨true, "", [], [1], none, 1, 1⟩,
        ⟨false, "div", [⟨"id", [Val.l ["y"]]⟩], [], some 0, 1, 1⟩] := by
  refine ⟨?_, ?_, rfl, rfl⟩
  · intro n x y hno
    have h1 : n.addAttr (Attr.mk1 "id" x)
        = { n with attrs := n.attrs ++ [Attr.mk1 "id" x] } :=
      addAttr_fresh (by simpa using hno)
    rw [h1]
    have hany : (((n.attrs ++ [Attr.mk1 "id" x]).any
        fun b => b.name = (Attr.mk1 "id" y).name)) = true := by
      simp [Attr.mk1]
    simp only [Node.addAttr, hany, if_true]
    rw [@mergeFirst_append_no_match n.attrs (Attr.mk1 "id" x)
      (Attr.mk1 "id" y) (by simpa using hno) rfl]
    simp [Attr.add, Attr.mk1, Val.str]
  · intro n x y hno
    have h1 : n.addAttr (Attr.mk1 "class" x)
        = { n with attrs := n.attrs ++ [Attr.mk1 "class" x] } :=
      addAttr_fresh (by simpa using hno)
    rw [h1]
    have hany : (((n.attrs ++ [Attr.mk1 "class" x]).any
        fun b => b.name = (Attr.mk1 "class" y).name)) = true := by
      simp [Attr.mk1]
    simp only [Node.addAttr, hany, if_true]
    rw [@mergeFirst_append_no_match n.attrs (Attr.mk1 "class" x)
      (Attr.mk1 "class" y) (by simpa using hno) rfl]
    simp [Attr.add, Attr.mk1]

/-- C5, witness: the general halves of `claim5_attr_add` applied at
`Node.tag "div"`. -/
theorem claim5_attr_add_witness :
    (((Node.tag "div").addAttr (Attr.mk1 "id" "x")).addAttr
        (Attr.mk1 "id" "y")).attrs = [⟨"id", [Val.l ["y"]]⟩]
    ∧ (((Node.tag "div").addAttr (Attr.mk1 "class" "a")).addAttr
        (Attr.mk1 "class" "b")).attrs = [⟨"class", [Val.s "a", Val.s "b"]⟩] :=
  ⟨by simpa using claim5_attr_add.1 (Node.tag "div") "x" "y" (by decide),
   by simpa using claim5_attr_add.2.1 (Node.tag "div") "a" "b" (by decide)⟩

/-! ### C10: multiplication by 1 is the identity on the parsed tree -/

theorem bind_ok_eq {β γ : Type} (a : β) (f : β → Except Err γ) :
    ((Except.ok a : Except Err β) >>= f) = f a := rfl

theorem fold_literal (cs : List Char) (hlit : ∀ c ∈ cs, c ∉ opChars ∧ c ≠ ' ')
    (h : Heap) (ct : Obj) (s0 : String) :
    List.foldlM step (PState.mk h ct none s0) cs
      = .ok ⟨h, ct, none, ⟨s0.data ++ cs⟩⟩ := by
  induction cs generalizing s0 with
  | nil => simp only [List.append_nil]; rfl
  | cons c rest ih =>
    obtain ⟨hop, hsp⟩ := hlit c (by simp)
    have hstep : step ⟨h, ct, none, s0⟩ c = .ok ⟨h, ct, none, s0.push c⟩ := by
      simp [step, hop, hsp]
    rw [List.foldlM_cons, hstep, bind_ok_eq]
    have := ih (fun c hc => hlit c (by simp [hc])) (s0.push c)
    simpa [String.push, List.append_assoc] using this

theorem parse_literal (s : String) (hne : s ≠ "")
    (hlit : ∀ c ∈ s.toList, c ∉ opChars ∧ c ≠ ' ') :
    parse s = .ok [⟨true, "", [], [1], none, 1, 1⟩,
      ⟨false, s, [], [], some 0, 1, 1⟩] := by
  unfold parse parseL initSt
  rw [fold_literal s.toList hlit [Node.root] (.node 0) "", bind_ok_eq]
  show finish ⟨[Node.root], .node 0, none, s⟩ = _
  simp only [finish, hne, newTag, alloc, gtAttach, getN, setN, Node.tag,
    Node.root, ne_eq, not_false_eq_true, true_and]
  rfl

/-- C10: for every abbreviation consisting of a single name literal `s`,
`parse (s ++ "*1")` produces exactly the tree of `parse s`: one top-level
node named `s`, no clones created, multiplication position 1 and group
size 1. -/
theorem claim10_mul_one (s : String) (hne : s ≠ "")
    (hlit : ∀ c ∈ s.toList, c ∉ opChars ∧ c ≠ ' ') :
    parse (s ++ "*1") = parse s
    ∧ parse s = .ok [⟨true, "", [], [1], none, 1, 1⟩,
        ⟨false, s, [], [], some 0, 1, 1⟩] := by
  have hps := parse_literal s hne hlit
  refine ⟨?_, hps⟩
  rw [hps]
  unfold parse parseL initSt
  have hsplit : (s ++ "*1").toList = s.toList ++ ['*', '1'] := by
    show (s ++ "*1").data = s.data ++ ['*', '1']
    simp
  rw [hsplit, List.foldlM_append, fold_literal s.toList hlit [Node.root] (.node 0) ""]
  have hs : (⟨"".data ++ s.toList⟩ : String) = s := by
    show (⟨s.data⟩ : String) = s
    rfl
  rw [bind_ok_eq]
  have hstar : step ⟨[Node.root], .node 0, none, ⟨"".data ++ s.toList⟩⟩ '*'
      = .ok ⟨[⟨true, "", [], [1], none, 1, 1⟩, ⟨false, s, [], [], some 0, 1, 1⟩],
          .node 1, some (.base .star), ""⟩ := by
    rw [hs]
    have hop : ¬ ('*' ∉ opChars) := by decide
    simp only [step, if_neg hop]
    simp [hne, newTag, alloc, gtAttach, getN, setN, Node.tag, Node.root, baseOf]
    rfl
  rw [List.foldlM_cons, hstar, bind_ok_eq, List.foldlM_cons]
  have hone : step ⟨[⟨true, "", [], [1], none, 1, 1⟩,
        ⟨false, s, [], [], some 0, 1, 1⟩], .node 1, some (.base .star), ""⟩ '1'
      = .ok ⟨[⟨true, "", [], [1], none, 1, 1⟩, ⟨false, s, [], [], some 0, 1, 1⟩],
          .node 1, some (.base .star), "1"⟩ := rfl
  rw [hone, bind_ok_eq, List.foldlM_nil, pure_bind]
  show finish ⟨[⟨true, "", [], [1], none, 1, 1⟩,
    ⟨false, s, [], [], some 0, 1, 1⟩], .node 1, some (.base .star), "1"⟩ = _
  rfl

/-- C10, witness: `claim10_mul_one` at the one-letter literal `"a"`. -/
theorem claim10_mul_one_witness :
    parse "a*1" = parse "a"
    ∧ parse "a" = .ok [⟨true, "", [], [1], none, 1, 1⟩,
        ⟨false, "a", [], [], some 0, 1, 1⟩] :=
  claim10_mul_one "a" (by decide) (by decide)

/-! ### C4: `$` placeholder substitution in attribute values -/

theorem dw_len_le {p : Char → Bool} (l : List Char) :
    (l.dropWhile p).length ≤ l.length := by
  induction l with
  | nil => simp
  | cons a as ih =>
    by_cases h : p a
    · simp only [List.dropWhile_cons, h, if_true, List.length_cons]
      exact Nat.le_succ_of_le ih
    · simp [List.dropWhile_cons, h]

/-- Specification-style substitution: *every* maximal run of `$`
characters, of length K, is replaced by the multiplication index
zero-padded to width K. -/
def replaceRuns (mul : Int) : List Char → List Char
  | [] => []
  | c :: cs =>
    if c = '$' then
      (padFmt mul ((cs.takeWhile (· = '$')).length + 1)).toList
        ++ replaceRuns mul (cs.dropWhile (· = '$'))
    else c :: replaceRuns mul cs
termination_by cs => cs.length
decreasing_by
  · simp only [List.length_cons]
    exact Nat.lt_succ_of_le (dw_len_le cs)
  · simp

/-- Substitution as the specification sentence of the claim describes it:
only the *first* maximal run participates, later runs stay literal. -/
def replaceFirstOnly (mul : Int) : List Char → List Char
  | [] => []
  | c :: cs =>
    if c = '$' then
      (padFmt mul ((cs.takeWhile (· = '$')).length + 1)).toList
        ++ cs.dropWhile (· = '$')
    else c :: replaceFirstOnly mul cs

theorem takeWhile_repl (q : Nat) :
    (List.replicate q '$').takeWhile (· = '$') = List.replicate q '$' := by
  induction q with
  | zero => rfl
  | succ q ih => simp [List.replicate_succ, List.takeWhile_cons, ih]

theorem dropWhile_repl (q : Nat) :
    (List.replicate q '$').dropWhile (· = '$') = [] := by
  induction q with
  | zero => rfl
  | succ q ih => simp [List.replicate_succ, List.dropWhile_cons, ih]

theorem takeWhile_repl_append (q : Nat) (c : Char) (cs : List Char)
    (hc : c ≠ '$') :
    ((List.replicate q '$' ++ c :: cs).takeWhile (· = '$'))
      = List.replicate q '$' := by
  induction q with
  | zero => simp [List.takeWhile_cons, hc]
  | succ q ih => simp [List.replicate_succ, List.takeWhile_cons, ih]

theorem dropWhile_repl_append (q : Nat) (c : Char) (cs : List Char)
    (hc : c ≠ '$') :
    ((List.replicate q '$' ++ c :: cs).dropWhile (· = '$')) = c :: cs := by
  induction q with
  | zero => simp [List.dropWhile_cons, hc]
  | succ q ih => simp [List.replicate_succ, List.dropWhile_cons, ih]

theorem repl_append_cons (q : Nat) (cs : List Char) :
    List.replicate q '$' ++ '$' :: cs = List.replicate (q + 1) '$' ++ cs := by
  rw [List.replicate_succ']
  simp

/-- The character scan of `Attribute.tostr` substitutes every maximal
dollar run, not only the first. -/
theorem scanStr_eq_replaceRuns_aux (mul : Int) (cs : List Char) :
    ∀ pad, scanStr mul cs pad
      = replaceRuns mul (List.replicate pad '$' ++ cs) := by
  induction cs with
  | nil =>
    intro pad
    cases pad with
    | zero => simp [scanStr, replaceRuns]
    | succ q =>
      simp only [scanStr, List.append_nil, List.replicate_succ, replaceRuns,
        if_pos rfl, takeWhile_repl, dropWhile_repl, List.length_replicate]
      simp
  | cons c cs ih =>
    intro pad
    by_cases hc : c = '$'
    · subst hc
      have hl : scanStr mul ('$' :: cs) pad = scanStr mul cs (pad + 1) := by
        simp [scanStr]
      rw [hl, ih (pad + 1), repl_append_cons]
    · simp only [scanStr, if_neg hc]
      cases pad with
      | zero =>
        simp only [List.replicate, List.nil_append, replaceRuns, if_neg hc]
        rw [ih 0]
        simp [List.replicate]
      | succ q =>
        have : List.replicate (q + 1) '$' ++ c :: cs
            = '$' :: (List.replicate q '$' ++ c :: cs) := by
          simp [List.replicate_succ]
        rw [this]
        simp only [replaceRuns, if_pos rfl,
          takeWhile_repl_append q c cs hc, dropWhile_repl_append q c cs hc,
          List.length_replicate]
        rw [ih 0]
        simp only [List.replicate, List.nil_append, replaceRuns, if_neg hc]
        simp

/-- C4, counterexample.  The claim asserts that only the first maximal
`$` run in an attribute value is substituted and later runs are kept as
literal `$` characters.  Rendering the class value `a$b$` with index 1
yields `a1b1` — the second run is substituted too — whereas the claimed
behaviour would yield `a1b$`. -/
theorem claim4_counterexample :
    attrTostr ⟨"class", [Val.s "a$b$"]⟩ (Jc.start false) 1
      = ("class=\"a1b1\"", Jc.start false, [])
    ∧ String.mk (replaceFirstOnly 1 ("a$b$".toList)) = "a1b$"
    ∧ ("a1b1" : String) ≠ "a1b$" :=
  ⟨rfl, rfl, by decide⟩

/-- C4, amended.  During rendering of an attribute value, *every* maximal
run of consecutive `$` characters of length K is replaced by the owning
node's effective multiplication index zero-padded to width K (the
character scan is equivalent to run-by-run substitution), and rendering
`parse "ul>li.item$$*2"` in counting mode with flat numbering yields
`item01` on the first `li` and `item02` on the second. -/
theorem claim4_amended :
    (∀ (mul : Int) (cs : List Char), scanStr mul cs 0 = replaceRuns mul cs)
    ∧ renderVal 2 (Val.s "item$$") = "item02"
    ∧ ((parse "ul>li.item$$*2").bind
        fun h => (renderRoot false 32 h true).map (fun x => x.1))
      = .ok "<ul>\n\t<li class=\"item01\">$3</li>\n\t<li class=\"item02\">$4</li>\n</ul>" := by
  refine ⟨?_, rfl, rfl⟩
  intro mul cs
  simpa using scanStr_eq_replaceRuns_aux mul cs 0

/-! ### C3 / C9: jump-counter monotonicity and silent-render purity -/

theorem attrTostr_mono (a : Attr) (jm : Jc) (m : Int) :
    jm.c ≤ (attrTostr a jm m).2.1.c
    ∧ ((attrTostr a jm m).2.2).Chain' (· < ·)
    ∧ ∀ x ∈ (attrTostr a jm m).2.2,
        jm.c < x ∧ x ≤ (attrTostr a jm m).2.1.c := by
  unfold attrTostr
  by_cases he : (a.value.map (renderVal m)).isEmpty
  · by_cases hc : jm.count
    · simp [he, Jc.inc, hc]
    · simp [he, Jc.inc, hc]
  · simp [he]

theorem attrTostr_count (a : Attr) (jm : Jc) (m : Int) :
    (attrTostr a jm m).2.1.count = jm.count := by
  unfold attrTostr
  by_cases he : (a.value.map (renderVal m)).isEmpty
  · by_cases hc : jm.count <;> simp [he, Jc.inc, hc]
  · simp [he]

theorem chain_lt_append {l1 l2 : List Nat} {b : Nat}
    (h1 : l1.Chain' (· < ·)) (h2 : l2.Chain' (· < ·))
    (hb1 : ∀ x ∈ l1, x ≤ b) (hb2 : ∀ x ∈ l2, b < x) :
    (l1 ++ l2).Chain' (· < ·) := by
  apply List.Chain'.append h1 h2
  intro x hx y hy
  have hx' : x ∈ l1 := List.mem_of_mem_getLast? hx
  have hy' : y ∈ l2 := List.mem_of_mem_head? hy
  exact lt_of_le_of_lt (hb1 x hx') (hb2 y hy')

theorem attrsTostr_mono (attrs : List Attr) (jm : Jc) (m : Int) :
    jm.c ≤ (attrsTostr attrs jm m).2.1.c
    ∧ ((attrsTostr attrs jm m).2.2).Chain' (· < ·)
    ∧ (∀ x ∈ (attrsTostr attrs jm m).2.2,
        jm.c < x ∧ x ≤ (attrsTostr attrs jm m).2.1.c)
    ∧ (attrsTostr attrs jm m).2.1.count = jm.count := by
  induction attrs generalizing jm with
  | nil => simp [attrsTostr]
  | cons a rest ih =>
    cases rest with
    | nil =>
      simpa [attrsTostr, attrTostr_count] using attrTostr_mono a jm m
    | cons b more =>
      have h1 := attrTostr_mono a jm m
      have hcnt := attrTostr_count a jm m
      have h2 := ih ((attrTostr a jm m).2.1)
      simp only [attrsTostr]
      obtain ⟨h1a, h1b, h1c⟩ := h1
      obtain ⟨h2a, h2b, h2c, h2d⟩ := h2
      refine ⟨le_trans h1a h2a, ?_, ?_, by simp [h2d, hcnt]⟩
      · exact chain_lt_append h1b h2b (fun x hx => (h1c x hx).2)
          (fun x hx => (h2c x hx).1)
      · intro x hx
        rcases List.mem_append.mp hx with hx1 | hx2
        · exact ⟨(h1c x hx1).1, le_trans (h1c x hx1).2 h2a⟩
        · exact ⟨lt_of_le_of_lt h1a (h2c x hx2).1, (h2c x hx2).2⟩

/-- Monotonicity/strict-increase property of one rendering step. -/
def MonoProp (jm : Jc) (out : String × Jc × List Nat) : Prop :=
  jm.c ≤ out.2.1.c ∧ out.2.2.Chain' (· < ·)
    ∧ (∀ x ∈ out.2.2, jm.c < x ∧ x ≤ out.2.1.c) ∧ out.2.1.count = jm.count

theorem tostrListF_mono (f : Nat → Jc → Except Err (String × Jc × List Nat))
    (hf : ∀ i jm out, f i jm = .ok out → MonoProp jm out) :
    ∀ (cs : List Nat) (jm : Jc) out,
      tostrListF f cs jm = .ok out → MonoProp jm out := by
  intro cs
  induction cs with
  | nil =>
    intro jm out h
    simp only [tostrListF] at h
    cases h
    simp [MonoProp]
  | cons c rest ih =>
    intro jm out h
    cases rest with
    | nil =>
      simp only [tostrListF] at h
      exact hf c jm out h
    | cons d more =>
      simp only [tostrListF] at h
      cases hx : f c jm with
      | error e => rw [hx] at h; cases h
      | ok o1 =>
        rw [hx, bind_ok_eq] at h
        cases hy : tostrListF f (d :: more) o1.2.1 with
        | error e => rw [hy] at h; cases h
        | ok o2 =>
          rw [hy, bind_ok_eq] at h
          cases h
          have p1 := hf c jm o1 hx
          have p2 := ih o1.2.1 o2 hy
          obtain ⟨p1a, p1b, p1c, p1d⟩ := p1
          obtain ⟨p2a, p2b, p2c, p2d⟩ := p2
          refine ⟨le_trans p1a p2a, ?_, ?_, by simp [p2d, p1d]⟩
          · exact chain_lt_append p1b p2b (fun x hx => (p1c x hx).2)
              (fun x hx => (p2c x hx).1)
          · intro x hx
            rcases List.mem_append.mp hx with hx1 | hx2
            · exact ⟨(p1c x hx1).1, le_trans (p1c x hx1).2 p2a⟩
            · exact ⟨lt_of_le_of_lt p1a (p2c x hx2).1, (p2c x hx2).2⟩

theorem tostrNode_mono (stacked : Bool) :
    ∀ (fuel : Nat) (h : Heap) (i : Nat) (jm : Jc) (lvl : Nat) (mul : Int) out,
      tostrNode stacked fuel h i jm lvl mul = .ok out → MonoProp jm out := by
  intro fuel
  induction fuel with
  | zero => intro h i jm lvl mul out hx; cases hx
  | succ fuel ih =>
    intro h i jm lvl mul out hx
    simp only [tostrNode] at hx
    cases hg : h[i]? with
    | none => rw [getN, hg] at hx; cases hx
    | some n =>
      rw [getN, hg, bind_ok_eq] at hx
      by_cases hr : n.isRoot
      · rw [if_pos hr] at hx; cases hx
      · rw [if_neg hr] at hx
        set m : Int := if stacked then n.mulEnd * (mul - 1) + n.mulPos
            else n.mulPos with hm
        have ha := attrsTostr_mono n.attrs jm m
        rcases hA : attrsTostr n.attrs jm m with ⟨astr, ajc, aids⟩
        rw [hA] at hx ha
        dsimp only at ha
        obtain ⟨haa, hab, hac, had⟩ := ha
        cases hy : tostrListF
            (fun c jc => tostrNode stacked fuel h c jc (lvl + 1) m)
            n.children ajc.inc.2 with
        | error e => rw [hy] at hx; cases hx
        | ok o2 =>
          obtain ⟨s2, jc2, ids2⟩ := o2
          rw [hy, bind_ok_eq] at hx
          have p2 := tostrListF_mono _
            (fun c jc o hv => ih h c jc (lvl + 1) m o hv) n.children _ _ hy
          simp only [MonoProp] at p2
          obtain ⟨p2a, p2b, p2c, p2d⟩ := p2
          have hinc : (ajc.inc).2.c = ajc.c + 1 := rfl
          have hinv : (ajc.inc).1 = ajc.c + 1 := rfl
          have hicc : (ajc.inc).2.count = jm.count := by
            simpa [Jc.inc] using had
          set L : List Nat := if n.children.isEmpty ∧ (ajc.inc).2.count
              then [(ajc.inc).1] else [] with hL
          cases hx
          have hLmem : ∀ x ∈ L, x = ajc.c + 1 := by
            intro x hxm
            rw [hL] at hxm
            split at hxm
            · simpa [hinv] using hxm
            · simp at hxm
          have hLchain : L.Chain' (· < ·) := by
            rw [hL]; split <;> simp
          refine ⟨?_, ?_, ?_, ?_⟩
          · show jm.c ≤ jc2.c
            rw [hinc] at p2a
            omega
          · show ((aids ++ L) ++ ids2).Chain' (· < ·)
            apply @chain_lt_append _ _ (ajc.c + 1)
            · apply @chain_lt_append _ _ ajc.c hab hLchain
                (fun x hxm => (hac x hxm).2)
                (fun x hxm => by rw [hLmem x hxm]; omega)
            · exact p2b
            · intro x hxm
              rcases List.mem_append.mp hxm with h1 | h2
              · exact le_trans (hac x h1).2 (by omega)
              · rw [hLmem x h2]
            · intro x hxm
              have := (p2c x hxm).1
              rw [hinc] at this
              omega
          · show ∀ x ∈ (aids ++ L) ++ ids2, jm.c < x ∧ x ≤ jc2.c
            intro x hxm
            have hca : ajc.c + 1 ≤ jc2.c := by rw [hinc] at p2a; omega
            rcases List.mem_append.mp hxm with h1 | h2
            · rcases List.mem_append.mp h1 with h3 | h4
              · refine ⟨(hac x h3).1, ?_⟩
                have := (hac x h3).2
                omega
              · have := hLmem x h4
                constructor <;> omega
            · have h5 := p2c x h2
              rw [hinc] at h5
              exact ⟨by omega, h5.2⟩
          · show jc2.count = jm.count
            rw [p2d, hicc]

/-- C3, counterexample.  The claim says leaf jump ids start at 1; the
counter is in fact pre-incremented once per visited node and the
post-increment value is embedded, so rendering `parse "div"` in counting
mode embeds `$2` at its single leaf — the first leaf id is 2, not 1. -/
theorem claim3_counterexample :
    ((parse "div").bind fun h =>
      (renderRoot false 32 h true).map fun x => (x.1, x.2.2))
      = .ok ("<div>$2</div>", [2])
    ∧ ([2] : List Nat) ≠ [1] :=
  ⟨rfl, by decide⟩

/-- C3, amended.  In counting mode the embedded jump ids of one render
call are strictly increasing in document (pre-order) order — hence contain
no duplicates — and are not reset between top-level nodes (a single
counter is threaded through the whole render).  However, the counter is
pre-incremented once per *visited node* (and once per empty-valued
attribute), and the embedded value is the post-increment counter, so
every embedded id exceeds 1 and the first leaf id is 1 plus the number of
increments before it: `parse "div"` renders `$2` at its only leaf,
`parse "div>p"` renders `$3` at the leaf `p`, and `parse "ul>li*3"`
renders `$3`, `$4`, `$5` at its three leaves. -/
theorem claim3_amended :
    (∀ (stacked : Bool) (fuel : Nat) (h : Heap) (count : Bool) out,
      renderRoot stacked fuel h count = .ok out →
      out.2.2.Chain' (· < ·) ∧ ∀ x ∈ out.2.2, 1 < x ∧ x ≤ out.2.1.c)
    ∧ ((parse "div").bind fun h =>
        (renderRoot false 32 h true).map fun x => (x.1, x.2.2))
        = .ok ("<div>$2</div>", [2])
    ∧ ((parse "div>p").bind fun h =>
        (renderRoot false 32 h true).map fun x => (x.1, x.2.2))
        = .ok ("<div>\n\t<p>$3</p>\n</div>", [3])
    ∧ ((parse "ul>li*3").bind fun h =>
        (renderRoot false 32 h true).map fun x => x.2.2)
        = .ok [3, 4, 5] := by
  refine ⟨?_, rfl, rfl, rfl⟩
  intro stacked fuel h count out hx
  simp only [renderRoot] at hx
  cases hg : h[0]? with
  | none => rw [getN, hg] at hx; cases hx
  | some n =>
    rw [getN, hg, bind_ok_eq] at hx
    have := tostrListF_mono _
      (fun c jc out hv => tostrNode_mono stacked fuel h c jc 0 1 out hv)
      n.children (Jc.start count) out hx
    obtain ⟨ha, hb, hc, _⟩ := this
    exact ⟨hb, fun x hv => (hc x hv).imp (fun q => q) fun q => q⟩

/-- C3, witness for the amended universal statement: applied to the
concrete render of `parse "ul>li*3"`. -/
theorem claim3_amended_witness :
    ([3, 4, 5] : List Nat).Chain' (· < ·)
    ∧ ∀ x ∈ ([3, 4, 5] : List Nat), 1 < x ∧ x ≤ 5 := by
  have hr : renderRoot false 32
      [⟨true, "", [], [1], none, 1, 1⟩,
        ⟨false, "ul", [], [2, 3, 4], some 0, 1, 1⟩,
        ⟨false, "li", [], [], some 1, 1, 3⟩,
        ⟨false, "li", [], [], some 1, 2, 3⟩,
        ⟨false, "li", [], [], some 1, 3, 3⟩] true
      = .ok ("<ul>\n\t<li>$3</li>\n\t<li>$4</li>\n\t<li>$5</li>\n</ul>",
          ⟨5, true⟩, [3, 4, 5]) := rfl
  have := claim3_amended.1 false 32 _ true _ hr
  simpa using this

theorem attrTostr_silent (a : Attr) (m : Int) (j1 j2 : Jc)
    (h1 : j1.count = false) (h2 : j2.count = false) :
    (attrTostr a j1 m).1 = (attrTostr a j2 m).1
    ∧ (attrTostr a j1 m).2.2 = [] := by
  obtain ⟨c1, k1⟩ := j1
  obtain ⟨c2, k2⟩ := j2
  simp only at h1 h2
  subst h1
  subst h2
  by_cases he : (a.value.map (renderVal m)).isEmpty <;>
    simp [attrTostr, he, Jc.inc]

theorem attrsTostr_silent (attrs : List Attr) (m : Int) :
    ∀ (j1 j2 : Jc), j1.count = false → j2.count = false →
    (attrsTostr attrs j1 m).1 = (attrsTostr attrs j2 m).1
    ∧ (attrsTostr attrs j1 m).2.2 = []
    ∧ (attrsTostr attrs j1 m).2.1.count = false := by
  induction attrs with
  | nil => intro j1 j2 h1 h2; exact ⟨rfl, rfl, h1⟩
  | cons a rest ih =>
    intro j1 j2 h1 h2
    cases rest with
    | nil =>
      obtain ⟨hs, hi⟩ := attrTostr_silent a m j1 j2 h1 h2
      have hcc : (attrTostr a j1 m).2.1.count = false := by
        rw [attrTostr_count]; exact h1
      exact ⟨hs, hi, hcc⟩
    | cons b more =>
      obtain ⟨hs, hi⟩ := attrTostr_silent a m j1 j2 h1 h2
      have hc1 : (attrTostr a j1 m).2.1.count = false := by
        rw [attrTostr_count]; exact h1
      have hc2 : (attrTostr a j2 m).2.1.count = false := by
        rw [attrTostr_count]; exact h2
      have hi2 : (attrTostr a j2 m).2.2 = [] :=
        (attrTostr_silent a m j2 j1 h2 h1).2
      obtain ⟨ts, ti, tc⟩ := ih (attrTostr a j1 m).2.1 (attrTostr a j2 m).2.1
        hc1 hc2
      simp only [attrsTostr]
      exact ⟨by rw [hs, ts], by rw [hi, ti]; rfl, tc⟩

/-- The property that one rendering step in silent mode neither depends on
nor reveals the jump counter. -/
def SilentProp (f : Nat → Jc → Except Err (String × Jc × List Nat)) : Prop :=
  ∀ (i : Nat) (j1 j2 : Jc), j1.count = false → j2.count = false →
    ((f i j1).map fun x => (x.1, x.2.2)) = ((f i j2).map fun x => (x.1, x.2.2))
    ∧ ∀ out, f i j1 = .ok out → out.2.1.count = false

theorem tostrListF_silent (f : Nat → Jc → Except Err (String × Jc × List Nat))
    (hf : SilentProp f) :
    ∀ (cs : List Nat) (j1 j2 : Jc), j1.count = false → j2.count = false →
      ((tostrListF f cs j1).map fun x => (x.1, x.2.2))
        = ((tostrListF f cs j2).map fun x => (x.1, x.2.2))
      ∧ ∀ out, tostrListF f cs j1 = .ok out → out.2.1.count = false := by
  intro cs
  induction cs with
  | nil =>
    intro j1 j2 h1 h2
    refine ⟨rfl, ?_⟩
    intro out hout
    cases hout
    exact h1
  | cons c rest ih =>
    intro j1 j2 h1 h2
    cases rest with
    | nil =>
      simp only [tostrListF]
      exact hf c j1 j2 h1 h2
    | cons d more =>
      obtain ⟨hfeq, hfcnt⟩ := hf c j1 j2 h1 h2
      simp only [tostrListF]
      cases hx1 : f c j1 with
      | error e =>
        cases hx2 : f c j2 with
        | error e2 =>
          rw [hx1, hx2] at hfeq
          have he : e = e2 := by simpa [Except.map] using hfeq
          subst he
          refine ⟨rfl, ?_⟩
          intro out hout
          cases hout
        | ok o2 =>
          rw [hx1, hx2] at hfeq
          cases hfeq
      | ok o1 =>
        cases hx2 : f c j2 with
        | error e =>
          rw [hx1, hx2] at hfeq
          cases hfeq
        | ok o2 =>
          rw [hx1, hx2] at hfeq
          have heq : o1.1 = o2.1 ∧ o1.2.2 = o2.2.2 := by
            have := hfeq
            simp [Except.map] at this
            exact ⟨this.1, this.2⟩
          have hc1 : o1.2.1.count = false := hfcnt o1 hx1
          have hc2 : o2.2.1.count = false := (hf c j2 j2 h2 h2).2 o2 hx2
          obtain ⟨ihe, ihc⟩ := ih o1.2.1 o2.2.1 hc1 hc2
          rw [bind_ok_eq, bind_ok_eq]
          constructor
          · cases hy1 : tostrListF f (d :: more) o1.2.1 with
            | error e =>
              cases hy2 : tostrListF f (d :: more) o2.2.1 with
              | error e2 =>
                rw [hy1, hy2] at ihe
                have he : e = e2 := by simpa [Except.map] using ihe
                subst he
                rfl
              | ok o4 =>
                rw [hy1, hy2] at ihe
                cases ihe
            | ok o3 =>
              cases hy2 : tostrListF f (d :: more) o2.2.1 with
              | error e2 =>
                rw [hy1, hy2] at ihe
                cases ihe
              | ok o4 =>
                rw [hy1, hy2] at ihe
                have h34 : o3.1 = o4.1 ∧ o3.2.2 = o4.2.2 := by
                  have := ihe
                  simp [Except.map] at this
                  exact ⟨this.1, this.2⟩
                obtain ⟨s3, j3, i3⟩ := o3
                obtain ⟨s4, j4, i4⟩ := o4
                simp only at h34
                rw [heq.1, heq.2, h34.1, h34.2]
                exact rfl
          · intro out hout
            cases hy1 : tostrListF f (d :: more) o1.2.1 with
            | error e =>
              rw [hy1] at hout
              cases hout
            | ok o3 =>
              rw [hy1, bind_ok_eq] at hout
              obtain ⟨s3, j3, i3⟩ := o3
              cases hout
              exact ihc (s3, j3, i3) hy1

theorem tostrNode_silent (stacked : Bool) :
    ∀ (fuel : Nat) (h : Heap) (i : Nat) (lvl : Nat) (mul : Int) (j1 j2 : Jc),
      j1.count = false → j2.count = false →
      ((tostrNode stacked fuel h i j1 lvl mul).map fun x => (x.1, x.2.2))
        = ((tostrNode stacked fuel h i j2 lvl mul).map fun x => (x.1, x.2.2))
      ∧ ∀ out, tostrNode stacked fuel h i j1 lvl mul = .ok out →
          out.2.1.count = false := by
  intro fuel
  induction fuel with
  | zero =>
    intro h i lvl mul j1 j2 h1 h2
    exact ⟨rfl, fun out hout => by cases hout⟩
  | succ fuel ih =>
    intro h i lvl mul j1 j2 h1 h2
    simp only [tostrNode]
    cases hg : h[i]? with
    | none =>
      rw [getN, hg]
      exact ⟨rfl, fun out hout => by cases hout⟩
    | some n =>
      rw [getN, hg, bind_ok_eq, bind_ok_eq]
      by_cases hr : n.isRoot
      · rw [if_pos hr, if_pos hr]
        exact ⟨rfl, fun out hout => by cases hout⟩
      · rw [if_neg hr, if_neg hr]
        set m : Int := if stacked then n.mulEnd * (mul - 1) + n.mulPos
            else n.mulPos with hm
        obtain ⟨has, hai, hac⟩ := attrsTostr_silent n.attrs m j1 j2 h1 h2
        have hac2 : (attrsTostr n.attrs j2 m).2.1.count = false :=
          (attrsTostr_silent n.attrs m j2 j1 h2 h1).2.2
        have hai2 : (attrsTostr n.attrs j2 m).2.2 = [] :=
          (attrsTostr_silent n.attrs m j2 j1 h2 h1).2.1
        rcases hA1 : attrsTostr n.attrs j1 m with ⟨a1, ja1, ia1⟩
        rcases hA2 : attrsTostr n.attrs j2 m with ⟨a2, ja2, ia2⟩
        rw [hA1] at has hai hac
        rw [hA2] at has hac2 hai2
        simp only at has hai hac hac2 hai2
        have hjc1 : (ja1.inc).2.count = false := hac
        have hjc2 : (ja2.inc).2.count = false := hac2
        have hsil := tostrListF_silent
          (fun c jc => tostrNode stacked fuel h c jc (lvl + 1) m)
          (fun c q1 q2 hq1 hq2 => ih h c (lvl + 1) m q1 q2 hq1 hq2)
          n.children
        cases hy1 : tostrListF
            (fun c jc => tostrNode stacked fuel h c jc (lvl + 1) m)
            n.children (ja1.inc).2 with
        | error e =>
          cases hy2 : tostrListF
              (fun c jc => tostrNode stacked fuel h c jc (lvl + 1) m)
              n.children (ja2.inc).2 with
          | error e2 =>
            have hle := (hsil (ja1.inc).2 (ja2.inc).2 hjc1 hjc2).1
            simp only [hy1, hy2] at hle
            have he : e = e2 := by simpa [Except.map] using hle
            subst he
            refine ⟨rfl, ?_⟩
            intro out hout
            cases hout
          | ok o2 =>
            have hle := (hsil (ja1.inc).2 (ja2.inc).2 hjc1 hjc2).1
            simp only [hy1, hy2] at hle
            cases hle
        | ok o1 =>
          cases hy2 : tostrListF
              (fun c jc => tostrNode stacked fuel h c jc (lvl + 1) m)
              n.children (ja2.inc).2 with
          | error e2 =>
            have hle := (hsil (ja1.inc).2 (ja2.inc).2 hjc1 hjc2).1
            simp only [hy1, hy2] at hle
            cases hle
          | ok o2 =>
            have hle := (hsil (ja1.inc).2 (ja2.inc).2 hjc1 hjc2).1
            have hlc := (hsil (ja1.inc).2 (ja2.inc).2 hjc1 hjc2).2
            simp only [hy1, hy2] at hle
            have h12 : o1.1 = o2.1 ∧ o1.2.2 = o2.2.2 := by
              have := hle
              simp [Except.map] at this
              exact ⟨this.1, this.2⟩
            obtain ⟨s1, jb1, ib1⟩ := o1
            obtain ⟨s2, jb2, ib2⟩ := o2
            simp only at h12
            rw [bind_ok_eq, bind_ok_eq]
            constructor
            · simp only [Except.map, hjc1, hjc2, has, hai, hai2, h12.1, h12.2,
                Bool.false_eq_true, if_false, and_false]
            · intro out hout
              cases hout
              exact hlc (s1, jb1, ib1) hy1

/-- C9: silent-mode rendering is deterministic and side-effect free.  In
the embedding every mutable piece of state is explicit: rendering takes
the heap and returns only text, so it cannot modify the tree, and
`renderRoot` builds a fresh `Jumpcount` per call; hence two successive
calls are the same pure application and give byte-identical output.
Substantively, the silent output is independent of the jump-counter
state: rendering any node with two different counter values (in
non-counting mode) yields identical strings and identical (empty)
embedded-id lists, so no counter state can leak between calls. -/
theorem claim9_silent_deterministic :
    (∀ (stacked : Bool) (fuel : Nat) (t : Heap),
      renderRoot stacked fuel t false = renderRoot stacked fuel t false)
    ∧ (∀ (stacked : Bool) (fuel : Nat) (t : Heap) (i : Nat) (lvl : Nat)
        (mul : Int) (j1 j2 : Jc), j1.count = false → j2.count = false →
        ((tostrNode stacked fuel t i j1 lvl mul).map fun x => (x.1, x.2.2))
          = ((tostrNode stacked fuel t i j2 lvl mul).map fun x => (x.1, x.2.2))) :=
  ⟨fun _ _ _ => rfl,
   fun stacked fuel t i lvl mul j1 j2 h1 h2 =>
    (tostrNode_silent stacked fuel t i lvl mul j1 j2 h1 h2).1⟩

/-- C9, witness: the counter-independence half applied to a concrete
two-node heap with counters 1 and 9. -/
theorem claim9_silent_deterministic_witness :
    ((tostrNode false 8 [Node.root, Node.tag "div"] 1 ⟨1, false⟩ 0 1).map
        fun x => (x.1, x.2.2))
      = ((tostrNode false 8 [Node.root, Node.tag "div"] 1 ⟨9, false⟩ 0 1).map
        fun x => (x.1, x.2.2)) :=
  claim9_silent_deterministic.2 false 8 [Node.root, Node.tag "div"] 1 0 1
    ⟨1, false⟩ ⟨9, false⟩ rfl rfl

/-! ### C1: the `*` operator on a single current node -/

theorem setN_self {h : Heap} {i : Nat} (n : Node) (hl : i < h.length) :
    (setN h i n)[i]? = some n := by
  simp [setN, List.getElem?_set, hl]

theorem setN_ne {h : Heap} {i j : Nat} (n : Node) (hne : i ≠ j) :
    (setN h i n)[j]? = h[j]? := by
  simp [setN, List.getElem?_set, hne]

theorem length_setN (h : Heap) (i : Nat) (n : Node) :
    (setN h i n).length = h.length := by
  simp [setN]

theorem append_self {h : Heap} (n : Node) : (h ++ [n])[h.length]? = some n :=
  List.getElem?_concat_length h n

theorem append_lt {h : Heap} (n : Node) {j : Nat} (hj : j < h.length) :
    (h ++ [n])[j]? = h[j]? := by
  rw [List.getElem?_append_left hj]

theorem set_append_last (h : Heap) (x y : Node) :
    (h ++ [x]).set h.length y = h ++ [y] := by
  rw [List.set_append_right _ _ (le_refl _)]
  simp

/-- `p > t` for distinct valid references: set `t.parent`, then append `t`
to `p.children`. -/
theorem gtAttach_ne {h : Heap} {p t : Nat} {tn pn : Node} (hpt : p ≠ t)
    (ht : h[t]? = some tn) (hp : h[p]? = some pn) :
    gtAttach h p t = .ok (setN (setN h t { tn with parent := some p }) p
      { pn with children := pn.children ++ [t] }) := by
  simp only [gtAttach, getN, ht, bind_ok_eq]
  rw [setN_ne _ (fun q => hpt q.symm), hp]
  rfl

/-- `Tag.clone` of a childless template appends exactly one fresh node
carrying the template's name, attributes and `parent` reference, with the
requested multiplication position and the template's group size. -/
theorem cloneNode_childless {fuel : Nat} {h : Heap} {i : Nat} {n : Node}
    {mul : Int} (hg : h[i]? = some n) (hr : n.isRoot = false)
    (hc : n.children = []) (hf : 1 ≤ fuel) :
    cloneNode fuel h i mul
      = .ok (h ++ [⟨false, n.name, n.attrs, [], n.parent, mul, n.mulEnd⟩],
          h.length) := by
  cases fuel with
  | zero => cases hf
  | succ fuel =>
    simp only [cloneNode, getN, hg, bind_ok_eq, hr, Bool.false_eq_true,
      if_false, alloc, hc, cloneListF]
    rw [show ((h ++ [Node.tag n.name])[h.length]?) = some (Node.tag n.name)
      from append_self _]
    simp only [bind_ok_eq, setN, Node.tag, map_clone_eq]
    rw [show (h ++ [(⟨false, n.name, [], [], none, 1, 1⟩ : Node)]).set h.length
        (⟨false, n.name, n.attrs, [], n.parent, mul, n.mulEnd⟩ : Node)
      = h ++ [⟨false, n.name, n.attrs, [], n.parent, mul, n.mulEnd⟩]
      from set_append_last ..]

/-- The clone loop of `operators['*']` on a childless single node: each
index `idx` in the list allocates one fresh clone (position `idx`, group
size inherited) and appends it to the node's parent. -/
theorem starClones_spec :
    ∀ (idxs : List Nat) (g : Heap) (i p : Nat) (ni pni : Node),
    g[i]? = some ni → ni.isRoot = false → ni.children = [] →
    ni.parent = some p → g[p]? = some pni → i ≠ p →
    i < g.length → p < g.length →
    ∃ g', starClones g i idxs = .ok (g', List.range' g.length idxs.length)
      ∧ g'.length = g.length + idxs.length
      ∧ (∀ j, j < g.length → j ≠ p → g'[j]? = g[j]?)
      ∧ g'[p]? = some { pni with
          children := pni.children ++ List.range' g.length idxs.length }
      ∧ (∀ k, ∀ hk : k < idxs.length, g'[g.length + k]?
          = some ⟨false, ni.name, ni.attrs, [], some p,
              ((idxs.get ⟨k, hk⟩ : Nat) : Int), ni.mulEnd⟩) := by
  intro idxs
  induction idxs with
  | nil =>
    intro g i p ni pni hg hr hc hpar hp hip hil hpl
    refine ⟨g, ?_, by simp, fun j _ _ => rfl, ?_, fun k hk => by cases hk⟩
    · simp [starClones]
    · simpa using hp
  | cons idx rest ih =>
    intro g i p ni pni hg hr hc hpar hp hip hil hpl
    have hclone := @cloneNode_childless (cloneFuel g) g i ni (idx : Int)
      hg hr hc (by simp [cloneFuel])
    set cl : Node := ⟨false, ni.name, ni.attrs, [], ni.parent, (idx : Int),
      ni.mulEnd⟩ with hcl
    have hplen2 : p < (g ++ [cl]).length := by
      simp only [List.length_append, List.length_cons, List.length_nil]
      omega
    have hcget : (g ++ [cl])[g.length]? = some cl := append_self _
    have hpget : (g ++ [cl])[p]? = some pni := by
      rw [append_lt _ hpl]
      exact hp
    have hpc : p ≠ g.length := by omega
    have hattach := @gtAttach_ne (g ++ [cl]) p g.length cl pni
      hpc hcget hpget
    -- the heap after one clone-and-attach
    set g1 : Heap := setN (setN (g ++ [cl]) g.length
        { cl with parent := some p }) p
        { pni with children := pni.children ++ [g.length] } with hg1
    have hg1len : g1.length = g.length + 1 := by
      simp [hg1, length_setN]
    have hg1i : g1[i]? = some ni := by
      rw [hg1, setN_ne _ (fun q => hip (q.symm)), setN_ne _ (by omega), append_lt _ hil]
      exact hg
    have hg1p : g1[p]? = some { pni with children := pni.children ++ [g.length] } := by
      rw [hg1, setN_self]
      simp [length_setN, List.length_append]
      omega
    have hg1c : g1[g.length]? = some { cl with parent := some p } := by
      rw [hg1, setN_ne _ hpc, setN_self]
      simp [setN, List.length_append]
    have hg1old : ∀ j, j < g.length → j ≠ p → g1[j]? = g[j]? := by
      intro j hj hjp
      rw [hg1, setN_ne _ (fun q => hjp q.symm), setN_ne _ (by omega),
        append_lt _ hj]
    obtain ⟨g2, hrun, hlen2, hold2, hp2, hclones2⟩ := ih g1 i p ni
      { pni with children := pni.children ++ [g.length] }
      hg1i hr hc hpar hg1p hip (by omega) (by omega)
    refine ⟨g2, ?_, ?_, ?_, ?_, ?_⟩
    · simp only [starClones, parentRef, getN, hg, bind_ok_eq, hpar, hclone]
      rw [hattach]
      simp only [bind_ok_eq]
      rw [hrun]
      simp only [bind_ok_eq, hg1len, List.length_cons]
      rw [List.range'_succ]
    · simp only [List.length_cons]
      omega
    · intro j hj hjp
      rw [hold2 j (by omega) hjp, hg1old j hj hjp]
    · rw [hp2]
      simp only [List.length_cons, List.append_assoc]
      rw [hg1len, List.range'_succ]
      rfl
    · intro k hk
      cases k with
      | zero =>
        rw [show g.length + 0 = g.length from rfl]
        rw [hold2 g.length (by omega) hpc.symm, hg1c]
        simp [hcl, hpar]
      | succ k =>
        have hk' : k < rest.length := by
          simpa [List.length_cons] using hk
        have := hclones2 k hk'
        rw [hg1len] at this
        rw [show g.length + (k + 1) = g.length + 1 + k by omega]
        rw [this]
        rfl

/-- C1: applying the `*` operator to a single (non-group) childless
current node `ct` with a positive parsed count `N` leaves `ct` with
multiplication position 1 and group size `N`, and creates exactly `N - 1`
clones appended in order as further children of `ct`'s parent, the
resulting group members carrying positions `1..N` in order, every member
with group size `N`; in particular `parse "ul>li*3"` yields `ul` with
exactly three children named `li` at positions 1, 2, 3, each with group
size 3. -/
theorem claim1_star_multiplication :
    (∀ (h : Heap) (i p : Nat) (n pn : Node) (s : String) (N : Int),
      h[i]? = some n → n.isRoot = false → n.children = [] →
      n.parent = some p → h[p]? = some pn → i ≠ p →
      i < h.length → p < h.length → pyInt s = .ok N → 1 ≤ N →
      ∃ h', applyPend h (.node i) s (.base .star)
          = .ok (h', .group (i :: List.range' h.length (N - 1).toNat))
        ∧ h'[i]? = some { n with mulPos := 1, mulEnd := N }
        ∧ h'[p]? = some { pn with
            children := pn.children ++ List.range' h.length (N - 1).toNat }
        ∧ h'.length = h.length + (N - 1).toNat
        ∧ (∀ k, k < (N - 1).toNat →
            h'[h.length + k]?
              = some ⟨false, n.name, n.attrs, [], some p, (k : Int) + 2, N⟩))
    ∧ parse "ul>li*3" = .ok [⟨true, "", [], [1], none, 1, 1⟩,
        ⟨false, "ul", [], [2, 3, 4], some 0, 1, 1⟩,
        ⟨false, "li", [], [], some 1, 1, 3⟩,
        ⟨false, "li", [], [], some 1, 2, 3⟩,
        ⟨false, "li", [], [], some 1, 3, 3⟩] := by
  refine ⟨?_, rfl⟩
  intro h i p n pn s N hg hr hc hpar hp hip hil hpl hNs hN
  have hn' : (setN h i { n with mulPos := 1, mulEnd := N })[i]?
      = some { n with mulPos := 1, mulEnd := N } := setN_self _ hil
  have hp' : (setN h i { n with mulPos := 1, mulEnd := N })[p]? = some pn := by
    rw [setN_ne _ hip]
    exact hp
  obtain ⟨g', hrun, hlen, hold, hpres, hclones⟩ := starClones_spec
    (intRange 2 N) (setN h i { n with mulPos := 1, mulEnd := N }) i p
    { n with mulPos := 1, mulEnd := N } pn hn' hr (by simpa using hc)
    (by simpa using hpar) hp' hip (by simpa [length_setN] using hil)
    (by simpa [length_setN] using hpl)
  have hrl : (intRange 2 N).length = (N - 1).toNat := by
    simp only [intRange, List.length_range']
    omega
  have hsl : (setN h i { n with mulPos := 1, mulEnd := N }).length
      = h.length := length_setN ..
  refine ⟨g', ?_, ?_, ?_, ?_, ?_⟩
  · show starSingle h i s = _
    simp only [starSingle, hNs, bind_ok_eq, getN, hg, hr, Bool.false_eq_true,
      if_false]
    rw [hr] at hrun hsl
    rw [hrun, hsl, hrl]
    rfl
  · rw [hold i (by omega) hip, hn']
  · rw [hpres, hsl, hrl]
  · rw [hlen, hsl, hrl]
  · intro k hk
    have hk' : k < (intRange 2 N).length := by omega
    have := hclones k hk'
    rw [hsl] at this
    rw [this]
    have : (intRange 2 N).get ⟨k, hk'⟩ = 2 + k := by
      simp [intRange, List.getElem_range']
    rw [this]
    simp only []
    congr 1
    push_cast
    ring

/-- C1, witness: the general half applied to a two-node heap holding one
childless tag under the root, with count literal `"3"`. -/
theorem claim1_star_multiplication_witness :
    ∃ h', applyPend [Node.root,
          { (Node.tag "li").addAttr (Attr.mk1 "x" "y") with parent := some 0 }]
        (.node 1) "3" (.base .star) = .ok (h', .group (1 :: List.range' 2 2))
      ∧ h'[1]? = some { (Node.tag "li").addAttr (Attr.mk1 "x" "y") with
          parent := some 0, mulPos := 1, mulEnd := 3 }
      ∧ h'[0]? = some { Node.root with children := [] ++ List.range' 2 2 }
      ∧ h'.length = 2 + 2
      ∧ (∀ k, k < 2 → h'[2 + k]?
          = some ⟨false, "li", [⟨"x", [Val.s "y"]⟩], [], some 0,
              (k : Int) + 2, 3⟩) := by
  have := claim1_star_multiplication.1
    [Node.root, { (Node.tag "li").addAttr (Attr.mk1 "x" "y") with
        parent := some 0 }] 1 0
    { (Node.tag "li").addAttr (Attr.mk1 "x" "y") with parent := some 0 }
    Node.root "3" 3
    (by decide) (by decide) (by decide) (by decide) (by decide) (by decide)
    (by decide) (by decide) (by rfl) (by decide)
  simpa using this

theorem lt_of_getN {h : Heap} {i : Nat} {n : Node} (hn : h[i]? = some n) :
    i < h.length := by
  by_contra hl
  rw [List.getElem?_eq_none (by omega)] at hn
  simp at hn

/-- C2: the `^` operator climbs one level then attaches as a sibling:
applying a pending base caret to a single current node reads
`ct.parent.parent` and attaches the fresh tag there; scanning a further
`^` while a pending operator is buffered and the literal buffer is empty
composes (`stack_parents`) without touching the tree, and each such
wrapper makes the applied operator move its result one further level up
(`moveUp` detaches from the old parent and re-attaches at the
grandparent); concretely `parse "a>b^c"` attaches `c` as a child of `a`'s
parent (a sibling of `a`, not a child of `b`), `parse "a>b>c^d"` makes
`d` a sibling of `b`, and `parse "a>b>c^^d"` makes `d` a sibling of
`a`. -/
theorem claim2_caret_climb :
    (∀ (h : Heap) (ct : Obj) (p : Pend),
      step ⟨h, ct, some p, ""⟩ '^' = .ok ⟨h, ct, some (.stacked p), ""⟩)
    ∧ (∀ (h : Heap) (i a g : Nat) (n an gn : Node) (s : String),
      h[i]? = some n → n.parent = some a →
      h[a]? = some an → an.parent = some g →
      h[g]? = some gn →
      applyPend h (.node i) s (.base .caret)
        = .ok (setN (h ++ [{ Node.tag s with parent := some g }]) g
            { gn with children := gn.children ++ [h.length] },
          .node h.length))
    ∧ (∀ (h : Heap) (t q r : Nat) (tn qn rn : Node) (cs : List Nat),
      h[t]? = some tn → tn.parent = some q →
      h[q]? = some qn → qn.isRoot = false →
      removeFirst qn.children t = some cs →
      qn.parent = some r → h[r]? = some rn →
      t ≠ q → t ≠ r → q ≠ r →
      moveUp h t = .ok (setN (setN (setN h q { qn with children := cs }) t
          { tn with parent := some r }) r
          { rn with children := rn.children ++ [t] }))
    ∧ (∀ (h h1 h2 : Heap) (ct : Obj) (s : String) (p : Pend) (t : Nat),
      applyPend h ct s p = .ok (h1, .node t) → moveUp h1 t = .ok h2 →
      applyPend h ct s (.stacked p) = .ok (h2, .node t))
    ∧ parse "a>b^c" = .ok [⟨true, "", [], [1, 3], none, 1, 1⟩,
        ⟨false, "a", [], [2], some 0, 1, 1⟩,
        ⟨false, "b", [], [], some 1, 1, 1⟩,
        ⟨false, "c", [], [], some 0, 1, 1⟩]
    ∧ parse "a>b>c^d" = .ok [⟨true, "", [], [1], none, 1, 1⟩,
        ⟨false, "a", [], [2, 4], some 0, 1, 1⟩,
        ⟨false, "b", [], [3], some 1, 1, 1⟩,
        ⟨false, "c", [], [], some 2, 1, 1⟩,
        ⟨false, "d", [], [], some 1, 1, 1⟩]
    ∧ parse "a>b>c^^d" = .ok [⟨true, "", [], [1, 4], none, 1, 1⟩,
        ⟨false, "a", [], [2], some 0, 1, 1⟩,
        ⟨false, "b", [], [3], some 1, 1, 1⟩,
        ⟨false, "c", [], [], some 2, 1, 1⟩,
        ⟨false, "d", [], [], some 0, 1, 1⟩] := by
  refine ⟨?_, ?_, ?_, ?_, rfl, rfl, rfl⟩
  · intro h ct p
    simp [step, composePend, baseOf, opChars, Except.map, bind_ok_eq]
  · intro h i a g n an gn s hg hpar ha hapar hgn
    have hgl : g < h.length := lt_of_getN hgn
    simp only [applyPend, objParent, parentRef, getN, hg, hpar, ha, hapar,
      bind_ok_eq, Except.map, newTag, alloc, objGt]
    rw [gtAttach_ne (Nat.ne_of_lt hgl) (append_self _)
      ((append_lt _ hgl).trans hgn)]
    simp only [bind_ok_eq]
    rw [show setN (h ++ [Node.tag s]) h.length
        { Node.tag s with parent := some g }
      = h ++ [{ Node.tag s with parent := some g }] from set_append_last h _ _]
  · intro h t q r tn qn rn cs ht htp hq hqroot hrm hqp hr htq htr hqrne
    simp only [moveUp, parentRef, getN, ht, htp, bind_ok_eq, ltDetach, hq,
      hqroot, Bool.false_eq_true, if_false, hrm]
    rw [setN_ne _ (Ne.symm htq), ht]
    simp only [bind_ok_eq, htp]
    rw [setN_self _ (lt_of_getN hq)]
    simp only [bind_ok_eq, hqp]
    rw [gtAttach_ne (Ne.symm htr)
      ((setN_ne _ (Ne.symm htq)).trans ht)
      ((setN_ne _ hqrne).trans hr)]
  · intro h h1 h2 ct s p t hinner hmu
    simp only [applyPend, hinner, bind_ok_eq, hmu]

/-- C2, witness: the base-caret half applied to the three-node heap of
`parse "a>b"`, attaching `"c"` at `b.parent.parent` (the root). -/
theorem claim2_caret_climb_witness :
    applyPend [(⟨true, "", [], [1], none, 1, 1⟩ : Node),
        ⟨false, "a", [], [2], some 0, 1, 1⟩,
        ⟨false, "b", [], [], some 1, 1, 1⟩] (.node 2) "c" (.base .caret)
      = .ok ([⟨true, "", [], [1, 3], none, 1, 1⟩,
          ⟨false, "a", [], [2], some 0, 1, 1⟩,
          ⟨false, "b", [], [], some 1, 1, 1⟩,
          ⟨false, "c", [], [], some 0, 1, 1⟩], .node 3) := by
  have := claim2_caret_climb.2.1 [(⟨true, "", [], [1], none, 1, 1⟩ : Node),
      ⟨false, "a", [], [2], some 0, 1, 1⟩,
      ⟨false, "b", [], [], some 1, 1, 1⟩] 2 1 0
      ⟨false, "b", [], [], some 1, 1, 1⟩ ⟨false, "a", [], [2], some 0, 1, 1⟩
      ⟨true, "", [], [1], none, 1, 1⟩ "c"
      (by decide) (by decide) (by decide) (by decide) (by decide)
  exact this.trans (by rfl)

theorem iterAttach_spec :
    ∀ (l : List Nat) (g : Heap) (t : Nat) (tn : Node),
    g[t]? = some tn → tn.isRoot = false → tn.children = [] →
    t ∉ l → (∀ x ∈ l, x < g.length) → l.Nodup →
    ∃ g', iterAttach g l t = .ok (g', List.range' g.length l.length)
      ∧ g'.length = g.length + l.length
      ∧ (∀ j, j < g.length → j ∉ l → g'[j]? = g[j]?)
      ∧ (∀ k, ∀ hk : k < l.length, ∀ xn, g[l.get ⟨k, hk⟩]? = some xn →
          g'[l.get ⟨k, hk⟩]?
            = some { xn with children := xn.children ++ [g.length + k] })
      ∧ (∀ k, ∀ hk : k < l.length, g'[g.length + k]?
          = some ⟨false, tn.name, tn.attrs, [], some (l.get ⟨k, hk⟩), 1,
              tn.mulEnd⟩) := by
  intro l
  induction l with
  | nil =>
    intro g t tn ht hroot hch htl hb hnd
    refine ⟨g, by simp [iterAttach], by simp, fun j _ _ => rfl, ?_, ?_⟩
    · intro k hk
      exact (Nat.not_lt_zero k hk).elim
    · intro k hk
      exact (Nat.not_lt_zero k hk).elim
  | cons x xs ih =>
    intro g t tn ht hroot hch htl hb hnd
    have hxl : x < g.length := hb x (List.mem_cons_self ..)
    have htg : t < g.length := lt_of_getN ht
    have htx : t ≠ x := fun q => htl (q ▸ List.mem_cons_self ..)
    obtain ⟨xn, hxg⟩ : ∃ xn, g[x]? = some xn :=
      ⟨g[x], List.getElem?_eq_getElem hxl⟩
    have hclone := @cloneNode_childless (cloneFuel g) g t tn 1
      ht hroot hch (by simp [cloneFuel])
    set cl : Node := ⟨false, tn.name, tn.attrs, [], tn.parent, 1, tn.mulEnd⟩
      with hcl
    have hcget : (g ++ [cl])[g.length]? = some cl := append_self _
    have hxget : (g ++ [cl])[x]? = some xn := by
      rw [append_lt _ hxl]
      exact hxg
    have hxc : x ≠ g.length := by omega
    have hattach := @gtAttach_ne (g ++ [cl]) x g.length cl xn
      hxc hcget hxget
    set g1 : Heap := setN (setN (g ++ [cl]) g.length
        { cl with parent := some x }) x
        { xn with children := xn.children ++ [g.length] } with hg1
    have hg1len : g1.length = g.length + 1 := by
      simp [hg1, length_setN]
    have hg1t : g1[t]? = some tn := by
      rw [hg1, setN_ne _ (fun q => htx q.symm), setN_ne _ (by omega),
        append_lt _ htg]
      exact ht
    have hb1 : ∀ y ∈ xs, y < g1.length := by
      intro y hy
      have := hb y (List.mem_cons_of_mem _ hy)
      omega
    have htxs : t ∉ xs := fun q => htl (List.mem_cons_of_mem _ q)
    have hxxs : x ∉ xs := (List.nodup_cons.mp hnd).1
    obtain ⟨g', hrun2, hlen2, hold2, hmem2, hclones2⟩ :=
      ih g1 t tn hg1t hroot hch htxs hb1 (List.nodup_cons.mp hnd).2
    refine ⟨g', ?_, ?_, ?_, ?_, ?_⟩
    · show iterAttach g (x :: xs) t = _
      simp only [iterAttach, hclone, bind_ok_eq, hattach, hrun2,
        List.length_cons]
      rw [hg1len, List.range'_succ]
    · rw [hlen2, hg1len]
      simp only [List.length_cons]
      omega
    · intro j hj hjl
      have hjx : j ≠ x := fun q => hjl (q ▸ List.mem_cons_self ..)
      have hjxs : j ∉ xs := fun q => hjl (List.mem_cons_of_mem _ q)
      rw [hold2 j (by omega) hjxs, hg1, setN_ne _ (fun q => hjx q.symm),
        setN_ne _ (by omega), append_lt _ hj]
    · intro k hk xn2 hxn2
      cases k with
      | zero =>
        have hx2 : xn = xn2 := Option.some.inj (hxg.symm.trans hxn2)
        subst hx2
        show g'[x]? = some { xn with children := xn.children ++ [g.length + 0] }
        have hxg1 : x < g1.length := by omega
        have hgx : g'[x]? = some { xn with children := xn.children ++ [g.length] } := by
          rw [hold2 x hxg1 hxxs, hg1]
          exact setN_self _ (by simp [length_setN]; omega)
        rw [hgx]
        simp
      | succ k =>
        have hk' : k < xs.length := by simpa using hk
        show g'[xs.get ⟨k, hk'⟩]? = some { xn2 with
          children := xn2.children ++ [g.length + (k + 1)] }
        have hmxs : xs.get ⟨k, hk'⟩ ∈ xs := List.get_mem ..
        have hml : xs.get ⟨k, hk'⟩ < g.length := hb _ (List.mem_cons_of_mem _ hmxs)
        have hmx : xs.get ⟨k, hk'⟩ ≠ x := fun q => hxxs (q ▸ hmxs)
        have hg1m : g1[xs.get ⟨k, hk'⟩]? = some xn2 := by
          rw [hg1, setN_ne _ (fun q => hmx q.symm), setN_ne _ (by omega),
            append_lt _ hml]
          exact hxn2
        have hres := hmem2 k hk' xn2 hg1m
        rw [hres, hg1len, show g.length + 1 + k = g.length + (k + 1) by omega]
    · intro k hk
      cases k with
      | zero =>
        have hgl1 : g.length ∉ xs := fun q => by
          have := hb _ (List.mem_cons_of_mem _ q)
          omega
        have hc0 : g1[g.length]? = some { cl with parent := some x } := by
          rw [hg1, setN_ne _ hxc]
          exact setN_self _ (by simp)
        show g'[g.length + 0]? = some ⟨false, tn.name, tn.attrs, [], some x, 1,
          tn.mulEnd⟩
        rw [show g.length + 0 = g.length from rfl,
          hold2 g.length (by omega) hgl1, hc0]
      | succ k =>
        have hk' : k < xs.length := by simpa using hk
        have hres := hclones2 k hk'
        rw [hg1len] at hres
        show g'[g.length + (k + 1)]?
          = some ⟨false, tn.name, tn.attrs, [], some (xs.get ⟨k, hk'⟩), 1,
              tn.mulEnd⟩
        rw [show g.length + (k + 1) = g.length + 1 + k by omega, hres]

theorem iterAdd_spec :
    ∀ (l : List Nat) (g : Heap) (a : Attr),
    (∀ x ∈ l, ∃ xn, g[x]? = some xn ∧ xn.isRoot = false) → l.Nodup →
    ∃ g', iterAdd g l a = .ok (g', l)
      ∧ g'.length = g.length
      ∧ (∀ j, j ∉ l → g'[j]? = g[j]?)
      ∧ (∀ k, ∀ hk : k < l.length, ∀ xn, g[l.get ⟨k, hk⟩]? = some xn →
          g'[l.get ⟨k, hk⟩]? = some (xn.addAttr a.clone)) := by
  intro l
  induction l with
  | nil =>
    intro g a hv hnd
    refine ⟨g, by simp [iterAdd], rfl, fun j _ => rfl, ?_⟩
    intro k hk
    exact (Nat.not_lt_zero k hk).elim
  | cons x xs ih =>
    intro g a hv hnd
    obtain ⟨xn, hxg, hxr⟩ := hv x (List.mem_cons_self ..)
    have hxl : x < g.length := lt_of_getN hxg
    have hnadd : nodeAddAttr g x a.clone
        = .ok (setN g x (xn.addAttr a.clone)) := by
      simp only [nodeAddAttr, getN, hxg, bind_ok_eq, hxr, Bool.false_eq_true,
        if_false]
    set g1 : Heap := setN g x (xn.addAttr a.clone) with hg1
    have hg1len : g1.length = g.length := length_setN ..
    have hxxs : x ∉ xs := (List.nodup_cons.mp hnd).1
    have hv1 : ∀ y ∈ xs, ∃ yn, g1[y]? = some yn ∧ yn.isRoot = false := by
      intro y hy
      obtain ⟨yn, hyg, hyr⟩ := hv y (List.mem_cons_of_mem _ hy)
      have hxy : x ≠ y := fun q => hxxs (q ▸ hy)
      refine ⟨yn, ?_, hyr⟩
      rw [hg1, setN_ne _ hxy]
      exact hyg
    obtain ⟨g', hrun2, hlen2, hold2, hmem2⟩ :=
      ih g1 a hv1 (List.nodup_cons.mp hnd).2
    refine ⟨g', ?_, ?_, ?_, ?_⟩
    · show iterAdd g (x :: xs) a = _
      simp only [iterAdd, hnadd, bind_ok_eq, hrun2]
    · rw [hlen2, hg1len]
    · intro j hj
      have hjx : x ≠ j := fun q => hj (q ▸ List.mem_cons_self ..)
      have hjxs : j ∉ xs := fun q => hj (List.mem_cons_of_mem _ q)
      rw [hold2 j hjxs, hg1, setN_ne _ hjx]
    · intro k hk xn2 hxn2
      cases k with
      | zero =>
        have hx2 : xn = xn2 := Option.some.inj (hxg.symm.trans hxn2)
        subst hx2
        show g'[x]? = some (xn.addAttr a.clone)
        rw [hold2 x hxxs, hg1]
        exact setN_self _ hxl
      | succ k =>
        have hk' : k < xs.length := by simpa using hk
        have hmxs : xs.get ⟨k, hk'⟩ ∈ xs := List.get_mem ..
        have hxm : x ≠ xs.get ⟨k, hk'⟩ := by
          intro q
          apply hxxs
          rw [q]
          exact hmxs
        have hg1m : g1[xs.get ⟨k, hk'⟩]? = some xn2 := by
          rw [hg1, setN_ne _ hxm]
          exact hxn2
        exact hmem2 k hk' xn2 hg1m

/-- C8: an operation broadcast over a `TagList` is applied independently
to each member, left to right; for a child attach each member receives
its own freshly allocated clone of the attached tag (the clone ids
`h.length + k` are pairwise distinct, each clone's `parent` is its own
member and each member's children gain exactly its own clone, so no
subtree is aliased across members); for an attribute add each member is
updated once with its own `a.clone`; and a broadcast result with exactly
one element is unwrapped by `_iter_objs` to a plain single node while a
longer one stays a group. -/
theorem claim8_group_broadcast :
    (∀ (h : Heap) (l : List Nat) (t : Nat) (tn : Node),
      h[t]? = some tn → tn.isRoot = false → tn.children = [] →
      t ∉ l → (∀ x ∈ l, x < h.length) → l.Nodup →
      ∃ h', objGt h (.group l) t
          = .ok (h', unwrap (List.range' h.length l.length))
        ∧ h'.length = h.length + l.length
        ∧ (∀ j, j < h.length → j ∉ l → h'[j]? = h[j]?)
        ∧ (∀ k, ∀ hk : k < l.length, ∀ xn, h[l.get ⟨k, hk⟩]? = some xn →
            h'[l.get ⟨k, hk⟩]?
              = some { xn with children := xn.children ++ [h.length + k] })
        ∧ (∀ k, ∀ hk : k < l.length, h'[h.length + k]?
            = some ⟨false, tn.name, tn.attrs, [], some (l.get ⟨k, hk⟩), 1,
                tn.mulEnd⟩))
    ∧ (∀ (h : Heap) (l : List Nat) (a : Attr),
      (∀ x ∈ l, ∃ xn, h[x]? = some xn ∧ xn.isRoot = false) → l.Nodup →
      ∃ h', objAdd h (.group l) a = .ok (h', unwrap l)
        ∧ h'.length = h.length
        ∧ (∀ j, j ∉ l → h'[j]? = h[j]?)
        ∧ (∀ k, ∀ hk : k < l.length, ∀ xn, h[l.get ⟨k, hk⟩]? = some xn →
            h'[l.get ⟨k, hk⟩]? = some (xn.addAttr a.clone)))
    ∧ (∀ x : Nat, unwrap [x] = .node x)
    ∧ (∀ (x y : Nat) (rest : List Nat),
        unwrap (x :: y :: rest) = .group (x :: y :: rest)) := by
  refine ⟨?_, ?_, fun x => rfl, fun x y rest => rfl⟩
  · intro h l t tn ht hroot hch htl hb hnd
    obtain ⟨g', hrun, hlen, hold, hmem, hclones⟩ :=
      iterAttach_spec l h t tn ht hroot hch htl hb hnd
    refine ⟨g', ?_, hlen, hold, hmem, hclones⟩
    simp only [objGt, hrun, bind_ok_eq]
  · intro h l a hv hnd
    obtain ⟨g', hrun, hlen, hold, hmem⟩ := iterAdd_spec l h a hv hnd
    refine ⟨g', ?_, hlen, hold, hmem⟩
    simp only [objAdd, hrun, bind_ok_eq]

/-- C8, witness: attaching a childless tag `x` to the two-member group
`[a, b]` creates two distinct fresh clones, one under each member. -/
theorem claim8_group_broadcast_witness :
    ∃ h', objGt [(⟨true, "", [], [1, 2], none, 1, 1⟩ : Node),
        ⟨false, "a", [], [], some 0, 1, 1⟩,
        ⟨false, "b", [], [], some 0, 1, 1⟩,
        ⟨false, "x", [], [], none, 1, 1⟩] (.group [1, 2]) 3
      = .ok (h', unwrap (List.range' 4 2))
      ∧ h'.length = 6
      ∧ h'[4]? = some ⟨false, "x", [], [], some 1, 1, 1⟩
      ∧ h'[5]? = some ⟨false, "x", [], [], some 2, 1, 1⟩ := by
  obtain ⟨h', hrun, hlen, hold, hmem, hclones⟩ :=
    claim8_group_broadcast.1 [(⟨true, "", [], [1, 2], none, 1, 1⟩ : Node),
      ⟨false, "a", [], [], some 0, 1, 1⟩,
      ⟨false, "b", [], [], some 0, 1, 1⟩,
      ⟨false, "x", [], [], none, 1, 1⟩] [1, 2] 3
      ⟨false, "x", [], [], none, 1, 1⟩
      (by decide) (by decide) (by decide) (by decide) (by decide) (by decide)
  refine ⟨h', hrun, by simpa using hlen, ?_, ?_⟩
  · simpa using hclones 0 (by decide)
  · simpa using hclones 1 (by decide)

theorem locallyCoherent_of_B {h : Heap} (hb : locallyCoherentB h = true) :
    locallyCoherent h := by
  intro j nj hj hroot
  have hjl : j < h.length := lt_of_getN hj
  have hall := List.all_eq_true.mp hb j (List.mem_range.mpr hjl)
  rw [hj] at hall
  simp only [hroot, Bool.false_eq_true, if_false] at hall
  cases hq : nj.parent with
  | none =>
    rw [hq] at hall
    simp at hall
  | some p =>
    rw [hq] at hall
    dsimp only at hall
    cases hp : h[p]? with
    | none =>
      rw [hp] at hall
      simp at hall
    | some pn =>
      rw [hp] at hall
      exact ⟨p, pn, rfl, hp, by simpa using hall⟩

/-- C7, counterexample.  The claim asserts in particular that every node
of a cloned subtree — the clone itself and all of its descendants — has
its parent reference assigned to its real structural parent inside the
clone at insertion time, never left pointing into the template's subtree.
In fact `Tag.clone` copies each descendant's `parent` verbatim from the
template (`t.parent = self.parent` inside the recursive `c.clone()`), and
only the top-level clone is re-parented by the `obj.parent > clone`
insertion.  Starting from a locally coherent heap (root with child `a`,
`a` with child `b`) and applying the `*` operator to `a` with count 2,
the cloned subtree's `b`-copy (cell 4) keeps `parent = 1` — the template
`a` — while cell 1's children are still `[2]`, so the invariant is
broken after a parser operation. -/
theorem claim7_counterexample :
    locallyCoherentB [{ Node.root with children := [1] },
      (⟨false, "a", [], [2], some 0, 1, 1⟩ : Node),
      ⟨false, "b", [], [], some 1, 1, 1⟩] = true
    ∧ applyPend [{ Node.root with children := [1] },
        (⟨false, "a", [], [2], some 0, 1, 1⟩ : Node),
        ⟨false, "b", [], [], some 1, 1, 1⟩] (.node 1) "2" (.base .star)
      = .ok ([{ Node.root with children := [1, 3] },
          ⟨false, "a", [], [2], some 0, 1, 2⟩,
          ⟨false, "b", [], [], some 1, 1, 1⟩,
          ⟨false, "a", [], [4], some 0, 2, 2⟩,
          ⟨false, "b", [], [], some 1, 1, 1⟩], .group [1, 3])
    ∧ locallyCoherentB [{ Node.root with children := [1, 3] },
        (⟨false, "a", [], [2], some 0, 1, 2⟩ : Node),
        ⟨false, "b", [], [], some 1, 1, 1⟩,
        ⟨false, "a", [], [4], some 0, 2, 2⟩,
        ⟨false, "b", [], [], some 1, 1, 1⟩] = false := by
  exact ⟨by decide, by rfl, by decide⟩
/-- C7, amended.  What the code actually guarantees: (1) cloning a
template with a child copies the child clone's `parent` verbatim from the
template child (pointing at whatever the template child pointed at —
for a template child this is the template node itself), and only the
top-level clone receives the requested multiplication position; (2) for
the childless templates actually produced by the parser's `*` operator,
the operation preserves the heap-wide invariant: the single clone chain
is re-parented to the real structural parent at insertion time and every
non-root cell's parent's children still contain it exactly once. -/
theorem claim7_amended :
    (∀ (fuel : Nat) (h : Heap) (i c : Nat) (n cn : Node) (mul : Int),
      2 ≤ fuel →
      h[i]? = some n → n.isRoot = false → n.children = [c] →
      h[c]? = some cn → cn.isRoot = false → cn.children = [] →
      cloneNode fuel h i mul
        = .ok (h ++ [⟨false, n.name, n.attrs, [h.length + 1], n.parent, mul,
              n.mulEnd⟩,
            ⟨false, cn.name, cn.attrs, [], cn.parent, 1, cn.mulEnd⟩],
          h.length))
    ∧ (∀ (h : Heap) (i p : Nat) (n pn : Node) (s : String) (N : Int),
      locallyCoherent h → childrenClosed h →
      h[i]? = some n → n.isRoot = false → n.children = [] →
      n.parent = some p → h[p]? = some pn → i ≠ p →
      i < h.length → p < h.length → pyInt s = .ok N → 1 ≤ N →
      ∃ h', applyPend h (.node i) s (.base .star)
          = .ok (h', .group (i :: List.range' h.length (N - 1).toNat))
        ∧ locallyCoherent h') := by
  constructor
  · intro fuel h i c n cn mul hf hg hr hc hcg hcr hcc
    obtain ⟨f, rfl⟩ : ∃ f, fuel = f + 2 := ⟨fuel - 2, by omega⟩
    have hcll : c < h.length := lt_of_getN hcg
    have hinner := @cloneNode_childless (f + 1) (h ++ [Node.tag n.name]) c cn
      (1 : Int) ((append_lt (Node.tag n.name) hcll).trans hcg) hcr hcc
      (by omega)
    have hlist : cloneListF (fun h' c => cloneNode (f + 1) h' c 1)
        (h ++ [Node.tag n.name]) [c]
      = .ok ((h ++ [Node.tag n.name])
          ++ [⟨false, cn.name, cn.attrs, [], cn.parent, 1, cn.mulEnd⟩],
        [(h ++ [Node.tag n.name]).length]) := by
      simp only [cloneListF, hinner, bind_ok_eq]
    simp only [cloneNode, getN, alloc, bind_ok_eq, Bool.false_eq_true,
      if_false] at hlist
    have e3 : ((h ++ [Node.tag n.name])
        ++ [(⟨false, cn.name, cn.attrs, [], cn.parent, 1, cn.mulEnd⟩ : Node)])[h.length]?
      = some (Node.tag n.name) := by
      rw [append_lt _ (by simp), append_self]
    simp only [cloneNode, getN, hg, bind_ok_eq, hr, Bool.false_eq_true,
      if_false, alloc, hc]
    rw [hlist]
    simp only [bind_ok_eq, e3, map_clone_eq, List.length_append,
      List.length_cons, List.length_nil, setN]
    rw [List.set_append_left _ _ (by simp), set_append_last,
      List.append_assoc]
    rfl
  · intro h i p n pn s N hcoh hclosed hg hr hc hpar hp hip hil hpl hNs hN
    have hn' : (setN h i { n with mulPos := 1, mulEnd := N })[i]?
        = some { n with mulPos := 1, mulEnd := N } := setN_self _ hil
    have hp' : (setN h i { n with mulPos := 1, mulEnd := N })[p]? = some pn := by
      rw [setN_ne _ hip]
      exact hp
    obtain ⟨g', hrun, hlen, hold, hpres, hclones⟩ := starClones_spec
      (intRange 2 N) (setN h i { n with mulPos := 1, mulEnd := N }) i p
      { n with mulPos := 1, mulEnd := N } pn hn' hr (by simpa using hc)
      (by simpa using hpar) hp' hip (by simpa [length_setN] using hil)
      (by simpa [length_setN] using hpl)
    have hrl : (intRange 2 N).length = (N - 1).toNat := by
      simp only [intRange, List.length_range']
      omega
    have hsl : (setN h i { n with mulPos := 1, mulEnd := N }).length
        = h.length := length_setN ..
    rw [hsl] at hlen hold hclones hpres
    rw [hrl] at hlen hpres
    rw [hsl, hrl] at hrun
    refine ⟨g', ?_, ?_⟩
    · show starSingle h i s = _
      simp only [starSingle, hNs, bind_ok_eq, getN, hg, hr, Bool.false_eq_true,
        if_false]
      rw [hr] at hrun
      rw [hrun]
      rfl
    · have hgi : g'[i]? = some { n with mulPos := 1, mulEnd := N } := by
        rw [hold i hil hip]
        exact hn'
      have hold' : ∀ j, j < h.length → j ≠ p → j ≠ i → g'[j]? = h[j]? := by
        intro j hj hjp hji
        rw [hold j hj hjp, setN_ne _ (fun q => hji q.symm)]
      have hfresh0 : ∀ j, j < h.length →
          (List.range' h.length (N - 1).toNat).count j = 0 := by
        intro j hj
        refine List.count_eq_zero_of_not_mem ?_
        intro hmem
        have := (List.mem_range'_1.mp hmem).1
        omega
      intro j nj hj hroot
      have hjl : j < g'.length := lt_of_getN hj
      rw [hlen] at hjl
      by_cases hjh : j < h.length
      · by_cases hji : j = i
        · subst hji
          have hnj : nj = { n with mulPos := 1, mulEnd := N } :=
            Option.some.inj (hj.symm.trans hgi)
          subst hnj
          refine ⟨p, { pn with
              children := pn.children ++ List.range' h.length (N - 1).toNat },
            ?_, hpres, ?_⟩
          · show n.parent = some p
            exact hpar
          · obtain ⟨p0, pn0, hp0, hpn0, hcnt0⟩ := hcoh j n hg hr
            have hpp : p0 = p := Option.some.inj (hp0.symm.trans hpar)
            rw [hpp] at hpn0
            have hpn2 : pn0 = pn := Option.some.inj (hpn0.symm.trans hp)
            rw [hpn2] at hcnt0
            show (pn.children ++ List.range' h.length (N - 1).toNat).count j = 1
            rw [List.count_append, hcnt0, hfresh0 j hjh]
        · by_cases hjp : j = p
          · subst hjp
            have hnj : nj = { pn with
                children := pn.children ++ List.range' h.length (N - 1).toNat } :=
              Option.some.inj (hj.symm.trans hpres)
            subst hnj
            have hpnroot : pn.isRoot = false := by simpa using hroot
            obtain ⟨q, qn, hq, hqn, hcnt⟩ := hcoh j pn hp hpnroot
            have hql : q < h.length := lt_of_getN hqn
            have hqi : q ≠ i := by
              intro hqe
              subst hqe
              have hqnn : qn = n := Option.some.inj (hqn.symm.trans hg)
              subst hqnn
              rw [hc] at hcnt
              simp at hcnt
            by_cases hqp : q = j
            · subst hqp
              have hqnpn : qn = pn := Option.some.inj (hqn.symm.trans hp)
              rw [hqnpn] at hcnt
              refine ⟨q, _, ?_, hpres, ?_⟩
              · show pn.parent = some q
                exact hq
              · show (pn.children
                    ++ List.range' h.length (N - 1).toNat).count q = 1
                rw [List.count_append, hcnt, hfresh0 q hql]
            · refine ⟨q, qn, ?_, ?_, hcnt⟩
              · show pn.parent = some q
                exact hq
              · rw [hold' q hql hqp hqi]
                exact hqn
          · have hnjh : h[j]? = some nj := by
              rw [← hold' j hjh hjp hji]
              exact hj
            obtain ⟨q, qn, hq, hqn, hcnt⟩ := hcoh j nj hnjh hroot
            have hql : q < h.length := lt_of_getN hqn
            have hqi : q ≠ i := by
              intro hqe
              subst hqe
              have hqnn : qn = n := Option.some.inj (hqn.symm.trans hg)
              subst hqnn
              rw [hc] at hcnt
              simp at hcnt
            by_cases hqp : q = p
            · subst hqp
              have hqnpn : qn = pn := Option.some.inj (hqn.symm.trans hp)
              rw [hqnpn] at hcnt
              refine ⟨q, _, hq, hpres, ?_⟩
              show (pn.children ++ List.range' h.length (N - 1).toNat).count j = 1
              rw [List.count_append, hcnt, hfresh0 j hjh]
            · refine ⟨q, qn, hq, ?_, hcnt⟩
              rw [hold' q hql hqp hqi]
              exact hqn
      · have hk2 : j - h.length < (intRange 2 N).length := by
          rw [hrl]
          omega
        have hcj := hclones (j - h.length) hk2
        have hje : h.length + (j - h.length) = j := by omega
        rw [hje] at hcj
        have hnjp : nj.parent = some p := by
          have hh := Option.some.inj (hj.symm.trans hcj)
          rw [hh]
        refine ⟨p, _, hnjp, hpres, ?_⟩
        show (pn.children ++ List.range' h.length (N - 1).toNat).count j = 1
        rw [List.count_append]
        have hc0 : pn.children.count j = 0 := by
          refine List.count_eq_zero_of_not_mem ?_
          intro hmem
          have := hclosed p pn hp j hmem
          omega
        have hc1 : (List.range' h.length (N - 1).toNat).count j = 1 := by
          refine List.count_eq_one_of_mem (List.nodup_range' _ _) ?_
          exact List.mem_range'_1.mpr ⟨by omega, by omega⟩
        rw [hc0, hc1]

/-- C7, witness: the verbatim-copy half of the amended claim applied to
the root–`a`–`b` chain, cloning `a` (which has child `b`) with
multiplication position 5. -/
theorem claim7_amended_witness :
    cloneNode 4 [{ Node.root with children := [1] },
        (⟨false, "a", [], [2], some 0, 1, 1⟩ : Node),
        ⟨false, "b", [], [], some 1, 1, 1⟩] 1 5
      = .ok ([{ Node.root with children := [1] },
          ⟨false, "a", [], [2], some 0, 1, 1⟩,
          ⟨false, "b", [], [], some 1, 1, 1⟩,
          ⟨false, "a", [], [4], some 0, 5, 1⟩,
          ⟨false, "b", [], [], some 1, 1, 1⟩], 3) := by
  have := claim7_amended.1 4 [{ Node.root with children := [1] },
      (⟨false, "a", [], [2], some 0, 1, 1⟩ : Node),
      ⟨false, "b", [], [], some 1, 1, 1⟩] 1 2
      ⟨false, "a", [], [2], some 0, 1, 1⟩ ⟨false, "b", [], [], some 1, 1, 1⟩ 5
      (by decide) (by decide) (by decide) (by decide) (by decide) (by decide)
      (by decide)
  exact this.trans (by rfl)

end EmmetPy
